import Mathlib

/-!
A verification development for the `blast` live audio engine.

The definitions below are shallow embeddings of the Rust sources:

* `src/blast/src/audio_processing/engine.rs` (`Conductor`, `Voice`, `Group`),
* `src/blast/src/audio_processing/commands.rs` (`CmdQueue`, `CmdProcessor`),
* `src/src/audio_processing/spsc_q.rs` (`SpscQueue`),
* `src/src/audio_processing/blast_time.rs` (`TempoState`, `convert_interval`),
* `src/src/audio_processing/processes.rs` (`Seq`),
* `src/src/audio_processing/blast_rand.rs` (`X128P`).

Machine integers are modelled as `Nat`/`Int` with explicit reductions mod `2^w`
where wrap-around matters.  `f32` values are modelled as exact rationals; where a
claim hinges on binary32 rounding the development uses an explicit
round-to-nearest-even model (`roundF32`) of binary32 arithmetic.
-/

namespace Blast

/-- Truncation toward zero, Rust's `f32::trunc` / the integer part used by
`as usize` and `as i64` casts. -/
def ratTrunc (q : ℚ) : Int :=
  if 0 ≤ q then ⌊q⌋ else -⌊-q⌋

/-- Rust's `f32 as usize` cast: truncates toward zero and saturates below at 0
(negative inputs give 0). -/
def ratToUsize (q : ℚ) : Nat :=
  (ratTrunc q).toNat

/-- Rust's `f32::fract`: `self - self.trunc()` (sign-preserving). -/
def ratFract (q : ℚ) : ℚ :=
  q - (ratTrunc q : ℚ)

/-- Rust's `f32 as i16` cast: truncate toward zero, saturating at the i16 range. -/
def i16cast (q : ℚ) : Int :=
  max (-32768) (min 32767 (ratTrunc q))

/-- Wrap-around into the i16 range, modelling overflow of `i16` addition. -/
def wrap16 (z : Int) : Int :=
  (z + 32768) % 65536 - 32768

/-- `TempoMode` from `blast_time.rs` (the `blast` crate's naming: a state is
owned by a `Voice`, a `Group`, a named `Context`, a `Process`, or is still
`TBD`). -/
inductive TempoMode
  | Voice | Group | Context | Process | TBD
deriving DecidableEq, Repr

/-- `TempoUnit` from `blast_time.rs`. -/
inductive TempoUnit
  | Samples | Millis | Bpm
deriving DecidableEq, Repr

/-- `TempoState` from `src/src/audio_processing/blast_time.rs`.  The global
`sample_rate` atomic is passed explicitly to the operations that read it. -/
structure TempoState where
  mode : TempoMode
  unit : TempoUnit
  interval : ℚ
  active : Bool
  current : Nat
deriving DecidableEq, Repr

/-- `convert_interval` from `blast_time.rs`, with f32 arithmetic taken exactly
(the binary32 roundings, including the underflow that can send a positive
interval to 0, are modelled separately by `convert_interval32` below and
carried by the claims that depend on them):
`Samples` returns the input directly; otherwise a fraction is formed
(`interval / 1000` for millis, `60 / interval` for BPM) and multiplied by the
sample rate. -/
def convert_interval (sr : ℚ) (unit : TempoUnit) (interval : ℚ) : ℚ :=
  match unit with
  | TempoUnit.Samples => interval
  | TempoUnit.Millis => sr * (interval / 1000)
  | TempoUnit.Bpm => sr * (60 / interval)

namespace TempoState

/-- `TempoState::new` from `blast_time.rs` (interval starts at the sample rate). -/
def new (sr : ℚ) : TempoState :=
  { mode := TempoMode.TBD
    unit := TempoUnit.Samples
    interval := sr
    active := false
    current := 0 }

/-- `TempoState::init` from `blast_time.rs`: converts the supplied interval into
samples and stores mode and unit. -/
def init (ts : TempoState) (sr : ℚ) (mode : TempoMode) (unit : TempoUnit)
    (interval : ℚ) : TempoState :=
  { ts with
    mode := mode
    unit := unit
    interval := convert_interval sr unit interval }

/-- `TempoState::update` from `blast_time.rs` specialised to the engine's
per-sample `update(1.0)` call (`current += 1`). -/
def update1 (ts : TempoState) : TempoState :=
  { ts with current := ts.current + 1 }

/-- `TempoState::current` from `blast_time.rs`: `current as f32 / interval`. -/
def current_f (ts : TempoState) : ℚ :=
  (ts.current : ℚ) / ts.interval

/-- `TempoState::reset` from `blast_time.rs`. -/
def reset (ts : TempoState) : TempoState :=
  { ts with current := 0 }

end TempoState

/-- Floor of log2 by structural fuel recursion (call with `fuel = n`). -/
def natLog2F : Nat → Nat → Nat
  | 0, _ => 0
  | fuel+1, n => if n ≤ 1 then 0 else natLog2F fuel (n / 2) + 1

/-- Whether `2 ^ e ≤ a / b` for naturals `a, b > 0` and a signed exponent. -/
def pow2le (e : Int) (a b : Nat) : Bool :=
  if 0 ≤ e then b * 2 ^ e.toNat ≤ a else b ≤ a * 2 ^ (-e).toNat

/-- Binade exponent of the positive rational `a / b`: the unique `e` with
`2 ^ e ≤ a / b < 2 ^ (e+1)`. -/
def qExp (a b : Nat) : Int :=
  let e0 : Int := (natLog2F a a : Int) - (natLog2F b b : Int)
  if pow2le (e0 + 1) a b then e0 + 1
  else if pow2le e0 a b then e0
  else e0 - 1

/-- Round-to-nearest-even of the rational `a / b` (`b > 0`) to an integer. -/
def rneDiv (a b : Int) : Int :=
  let q := Int.fdiv a b
  let r := a - q * b
  if 2 * r < b then q else if b < 2 * r then q + 1 else if q % 2 = 0 then q else q + 1

/-- IEEE-754 binary32 round-to-nearest-even of the positive rational `a / b`,
returned as a mantissa/exponent pair `(m, e)` meaning `m * 2 ^ e`.  The
exponent is clamped below at the subnormal threshold `-126`; overflow to
infinity and NaN are outside this model (the claims evaluate it only at
normal-range values). -/
def roundQ (a b : Nat) : Int × Int :=
  let e := max (qExp a b) (-126)
  let shift := 23 - e
  let num : Int := if 0 ≤ shift then (a : Int) * 2 ^ shift.toNat else (a : Int)
  let den : Int := if 0 ≤ shift then (b : Int) else (b : Int) * 2 ^ (-shift).toNat
  (rneDiv num den, e - 23)

/-- Binary32 rounding of the positive value `a * 2 ^ e`. -/
def roundValPos (a : Nat) (e : Int) : Int × Int :=
  if 0 ≤ e then roundQ (a * 2 ^ e.toNat) 1 else roundQ a (2 ^ (-e).toNat)

/-- Binary32 rounding of the signed value `m * 2 ^ e`. -/
def roundF32R (m : Int) (e : Int) : Int × Int :=
  if m = 0 then (0, 0)
  else if 0 < m then roundValPos m.toNat e
  else
    let p := roundValPos (-m).toNat e
    (-p.1, p.2)

/-- Binary32 multiplication: round the exact product. -/
def mulF32 (x y : Int × Int) : Int × Int :=
  roundF32R (x.1 * y.1) (x.2 + y.2)

/-- Binary32 division: round the exact quotient (nonzero divisor). -/
def divF32 (x y : Int × Int) : Int × Int :=
  if x.1 = 0 then (0, 0) else
  let s : Bool := decide ((0 ≤ x.1) = (0 ≤ y.1))
  let a := x.1.natAbs
  let b := y.1.natAbs
  let e := x.2 - y.2
  let p := if 0 ≤ e then roundQ (a * 2 ^ e.toNat) b else roundQ a (b * 2 ^ (-e).toNat)
  (if s then p.1 else -p.1, p.2)

/-- The rational value of a mantissa/exponent pair. -/
def fval (x : Int × Int) : ℚ := (x.1 : ℚ) * 2 ^ x.2

/-- `convert_interval` with its two f32 operations rounded to binary32, as the
hardware executes it: the fraction (`interval / 1000`, `60 / interval`) is a
rounded division and the multiplication by the sample rate rounds again. -/
def convert_interval32 (sr : Int × Int) (unit : TempoUnit) (interval : Int × Int) :
    Int × Int :=
  match unit with
  | TempoUnit.Samples => interval
  | TempoUnit.Millis => mulF32 sr (divF32 interval (1000, 0))
  | TempoUnit.Bpm => mulF32 sr (divF32 (60, 0) interval)

/-- Conversion to samples as the specification words it (exact arithmetic):
`Samples` is the identity, `Millis` is `sample_rate * interval / 1000` and
`Bpm` is `sample_rate * 60 / interval`. -/
def convert_interval_spec (sr : ℚ) (unit : TempoUnit) (interval : ℚ) : ℚ :=
  match unit with
  | TempoUnit.Samples => interval
  | TempoUnit.Millis => sr * interval / 1000
  | TempoUnit.Bpm => sr * 60 / interval

/-- Binary32 addition: align the two mantissas to the smaller exponent and
round the exact sum. -/
def addF32 (x y : Int × Int) : Int × Int :=
  if x.2 ≤ y.2 then roundF32R (x.1 + y.1 * 2 ^ (y.2 - x.2).toNat) x.2
  else roundF32R (x.1 * 2 ^ (x.2 - y.2).toNat + y.1) y.2

/-- `natLog2F n n` is `⌊log₂ n⌋`: with enough fuel, `2 ^ log ≤ n < 2 ^ (log+1)`. -/
theorem natLog2F_bounds : ∀ (fuel n : Nat), 0 < n → n ≤ fuel →
    2 ^ natLog2F fuel n ≤ n ∧ n < 2 ^ (natLog2F fuel n + 1) := by
  intro fuel
  induction fuel with
  | zero => intro n hn hf; omega
  | succ fuel ih =>
    intro n hn hf
    by_cases h1 : n ≤ 1
    · have hn1 : n = 1 := by omega
      subst hn1
      refine ⟨?_, ?_⟩ <;> simp [natLog2F]
    · have hrec := ih (n / 2) (by omega) (by omega)
      have hunf : natLog2F (fuel + 1) n = natLog2F fuel (n / 2) + 1 := by
        simp only [natLog2F, if_neg h1]
      rw [hunf]
      obtain ⟨hlo, hhi⟩ := hrec
      have e1 : 2 ^ (natLog2F fuel (n / 2) + 1) = 2 * 2 ^ natLog2F fuel (n / 2) := by ring
      have e2 : 2 ^ (natLog2F fuel (n / 2) + 1 + 1)
          = 2 * 2 ^ (natLog2F fuel (n / 2) + 1) := by ring
      omega

/-- Cast bridge: integer powers of two at natural exponents. -/
theorem qpow_natCast (n : Nat) : (2:ℚ) ^ ((n:ℤ)) = ((2 ^ n : ℕ) : ℚ) := by
  rw [zpow_natCast]; push_cast; ring

/-- `pow2le` decides `2 ^ e * b ≤ a` over ℚ. -/
theorem pow2le_iff (e : Int) (a b : Nat) (hb : 0 < b) :
    pow2le e a b = true ↔ (2:ℚ) ^ e * (b:ℚ) ≤ (a:ℚ) := by
  unfold pow2le
  by_cases he : 0 ≤ e
  · rw [if_pos he, decide_eq_true_iff]
    obtain ⟨n, rfl⟩ : ∃ n : ℕ, e = (n : ℤ) := ⟨e.toNat, by omega⟩
    rw [Int.toNat_natCast, qpow_natCast]
    rw [show ((2 ^ n : ℕ) : ℚ) * (b:ℚ) = ((b * 2 ^ n : ℕ) : ℚ) from by push_cast; ring,
      Nat.cast_le]
  · rw [if_neg he, decide_eq_true_iff]
    obtain ⟨k, rfl⟩ : ∃ k : ℕ, e = -(k : ℤ) := ⟨(-e).toNat, by omega⟩
    have hneg : (-(-(k:ℤ))).toNat = k := by omega
    rw [hneg, zpow_neg, qpow_natCast]
    have h2k : (0:ℚ) < ((2 ^ k : ℕ) : ℚ) := by positivity
    constructor
    · intro h
      have h' : (b:ℚ) ≤ (a:ℚ) * ((2 ^ k : ℕ) : ℚ) := by exact_mod_cast h
      calc (((2 ^ k : ℕ) : ℚ))⁻¹ * (b:ℚ)
          ≤ (((2 ^ k : ℕ) : ℚ))⁻¹ * ((a:ℚ) * ((2 ^ k : ℕ) : ℚ)) :=
            mul_le_mul_of_nonneg_left h' (by positivity)
      _ = (a:ℚ) := by field_simp
    · intro h
      have h' : (b:ℚ) ≤ (a:ℚ) * ((2 ^ k : ℕ) : ℚ) := by
        calc (b:ℚ) = ((2 ^ k : ℕ) : ℚ) * ((((2 ^ k : ℕ) : ℚ))⁻¹ * (b:ℚ)) := by
              field_simp
        _ ≤ ((2 ^ k : ℕ) : ℚ) * (a:ℚ) := mul_le_mul_of_nonneg_left h (le_of_lt h2k)
        _ = (a:ℚ) * ((2 ^ k : ℕ) : ℚ) := by ring
      exact_mod_cast h'

/-- The binade exponent chosen by `qExp` never overshoots: `2 ^ qExp a b ≤ a / b`. -/
theorem qExp_le (a b : Nat) (ha : 0 < a) (hb : 0 < b) :
    (2:ℚ) ^ qExp a b * (b:ℚ) ≤ (a:ℚ) := by
  unfold qExp
  by_cases h1 : pow2le ((natLog2F a a : Int) - (natLog2F b b : Int) + 1) a b
  · rw [if_pos h1]
    exact (pow2le_iff _ a b hb).mp h1
  · rw [if_neg h1]
    by_cases h2 : pow2le ((natLog2F a a : Int) - (natLog2F b b : Int)) a b
    · rw [if_pos h2]
      exact (pow2le_iff _ a b hb).mp h2
    · rw [if_neg h2]
      obtain ⟨hla, -⟩ := natLog2F_bounds a a ha (le_refl a)
      obtain ⟨-, hlb⟩ := natLog2F_bounds b b hb (le_refl b)
      have hla' : ((2 ^ natLog2F a a : ℕ) : ℚ) ≤ (a:ℚ) := by exact_mod_cast hla
      have hlb' : (b:ℚ) < ((2 ^ (natLog2F b b + 1) : ℕ) : ℚ) := by exact_mod_cast hlb
      have hpos : (0:ℚ) < (2:ℚ) ^ ((natLog2F a a : Int) - (natLog2F b b : Int) - 1) :=
        zpow_pos (by norm_num) _
      calc (2:ℚ) ^ ((natLog2F a a : Int) - (natLog2F b b : Int) - 1) * (b:ℚ)
          ≤ (2:ℚ) ^ ((natLog2F a a : Int) - (natLog2F b b : Int) - 1) *
              ((2 ^ (natLog2F b b + 1) : ℕ) : ℚ) :=
            mul_le_mul_of_nonneg_left (le_of_lt hlb') (le_of_lt hpos)
      _ = (2:ℚ) ^ ((natLog2F a a : Int)) := by
            rw [← qpow_natCast (natLog2F b b + 1), ← zpow_add₀ (by norm_num : (2:ℚ) ≠ 0)]
            congr 1
            push_cast
            ring
      _ = ((2 ^ natLog2F a a : ℕ) : ℚ) := qpow_natCast _
      _ ≤ (a:ℚ) := hla'

/-- `rneDiv` by 1 is the identity. -/
theorem rneDiv_one (a : Int) : rneDiv a 1 = a := by
  show (if 2 * (a - a.fdiv 1 * 1) < 1 then a.fdiv 1
      else if 1 < 2 * (a - a.fdiv 1 * 1) then a.fdiv 1 + 1
      else if a.fdiv 1 % 2 = 0 then a.fdiv 1 else a.fdiv 1 + 1) = a
  rw [Int.fdiv_one]
  norm_num

/-- Round-to-nearest-even of a rational strictly above 1/2 is at least 1. -/
theorem rneDiv_pos (a b : Int) (hb : 0 < b) (h : b < 2 * a) : 1 ≤ rneDiv a b := by
  have hfd : a.fdiv b = a / b := Int.fdiv_eq_ediv a (le_of_lt hb)
  show 1 ≤ (if 2 * (a - a.fdiv b * b) < b then a.fdiv b
      else if b < 2 * (a - a.fdiv b * b) then a.fdiv b + 1
      else if a.fdiv b % 2 = 0 then a.fdiv b else a.fdiv b + 1)
  rw [hfd]
  have hde := Int.ediv_add_emod a b
  have hmn : 0 ≤ a % b := Int.emod_nonneg a (by omega)
  have hmx : a % b < b := Int.emod_lt_of_pos a hb
  have hr : a - a / b * b = a % b := by linear_combination -hde
  rw [hr]
  have hq0 : 0 < a / b ∨ (a / b = 0 ∧ a % b = a) := by
    rcases lt_trichotomy (a / b) 0 with hlt | he | hgt
    · exfalso
      have h1 : a / b ≤ -1 := by omega
      have h2 : b * (a / b) ≤ b * (-1) := mul_le_mul_of_nonneg_left h1 (le_of_lt hb)
      linarith
    · right
      refine ⟨he, ?_⟩
      rw [he, mul_zero] at hde
      linarith
    · left; exact hgt
  rcases hq0 with hq | ⟨hq, hm⟩
  · split
    · omega
    · split
      · omega
      · split <;> omega
  · rw [hm, if_neg (by omega), if_pos h, hq]
    norm_num

/-- The mantissa/exponent split `roundQ` makes when the scaling shift is
nonnegative. -/
theorem roundQ_eq_pos (a b : Nat) (e : Int) (hedef : e = max (qExp a b) (-126))
    (hsh : 0 ≤ 23 - e) :
    roundQ a b = (rneDiv ((a:Int) * 2 ^ (23 - e).toNat) (b:Int), e - 23) := by
  subst hedef
  show (rneDiv
      (if 0 ≤ 23 - max (qExp a b) (-126) then
        (a:Int) * 2 ^ (23 - max (qExp a b) (-126)).toNat else (a:Int))
      (if 0 ≤ 23 - max (qExp a b) (-126) then (b:Int)
        else (b:Int) * 2 ^ (-(23 - max (qExp a b) (-126))).toNat),
      max (qExp a b) (-126) - 23) = _
  rw [if_pos hsh, if_pos hsh]

/-- The split `roundQ` makes when the scaling shift is negative. -/
theorem roundQ_eq_neg (a b : Nat) (e : Int) (hedef : e = max (qExp a b) (-126))
    (hsh : ¬ 0 ≤ 23 - e) :
    roundQ a b = (rneDiv (a:Int) ((b:Int) * 2 ^ (-(23 - e)).toNat), e - 23) := by
  subst hedef
  show (rneDiv
      (if 0 ≤ 23 - max (qExp a b) (-126) then
        (a:Int) * 2 ^ (23 - max (qExp a b) (-126)).toNat else (a:Int))
      (if 0 ≤ 23 - max (qExp a b) (-126) then (b:Int)
        else (b:Int) * 2 ^ (-(23 - max (qExp a b) (-126))).toNat),
      max (qExp a b) (-126) - 23) = _
  rw [if_neg hsh, if_neg hsh]

/-- The result exponent of `roundQ` never drops below the subnormal floor. -/
theorem roundQ_snd_ge (a b : Nat) : -149 ≤ (roundQ a b).2 := by
  have h : (roundQ a b).2 = max (qExp a b) (-126) - 23 := rfl
  rw [h]
  omega

/-- `roundQ` never rounds a rational strictly above `2 ^ -150` to zero. -/
theorem roundQ_fst_pos (a b : Nat) (ha : 0 < a) (hb : 0 < b)
    (h : (2:ℚ) ^ (-150 : ℤ) * (b:ℚ) < (a:ℚ)) : 1 ≤ (roundQ a b).1 := by
  have hqe := qExp_le a b ha hb
  obtain ⟨e, hedef⟩ : ∃ e : Int, e = max (qExp a b) (-126) := ⟨_, rfl⟩
  have he126 : -126 ≤ e := by omega
  have ha' : (0:ℚ) < (a:ℚ) := by exact_mod_cast ha
  have hb' : (0:ℚ) < (b:ℚ) := by exact_mod_cast hb
  have hkey : (2:ℚ) ^ (e - 24) * (b:ℚ) < (a:ℚ) := by
    rcases le_or_lt (-126) (qExp a b) with hc | hc
    · have hee : e = qExp a b := by omega
      have hqe' : (2:ℚ) ^ e * (b:ℚ) ≤ (a:ℚ) := by rw [hee]; exact hqe
      have h1 : (2:ℚ) ^ (e - 24) = (2:ℚ) ^ e * (2:ℚ) ^ (-24 : ℤ) := by
        rw [← zpow_add₀ (by norm_num : (2:ℚ) ≠ 0),
          show e + (-24 : ℤ) = e - 24 from by ring]
      have h24 : (2:ℚ) ^ (-24 : ℤ) = 1 / 16777216 := by
        rw [show (-24 : ℤ) = -((24:ℕ):ℤ) from by norm_num, zpow_neg, zpow_natCast]
        norm_num
      calc (2:ℚ) ^ (e - 24) * (b:ℚ) = ((2:ℚ) ^ e * (b:ℚ)) * (2:ℚ) ^ (-24 : ℤ) := by
            rw [h1]; ring
      _ ≤ (a:ℚ) * (2:ℚ) ^ (-24 : ℤ) := by
            apply mul_le_mul_of_nonneg_right hqe' (by positivity)
      _ < (a:ℚ) := by rw [h24]; linarith
    · have hee : e = -126 := by omega
      rw [hee, show (-126 : ℤ) - 24 = -150 from by norm_num]
      exact h
  by_cases hsh : 0 ≤ 23 - e
  · rw [roundQ_eq_pos a b e hedef hsh]
    obtain ⟨m, hm⟩ : ∃ m : ℕ, 23 - e = (m:ℤ) := ⟨(23 - e).toNat, by omega⟩
    have hmt : (23 - e).toNat = m := by omega
    show 1 ≤ rneDiv ((a:Int) * 2 ^ (23 - e).toNat) (b:Int)
    rw [hmt]
    apply rneDiv_pos
    · exact_mod_cast hb
    · have hq : (b:ℚ) < 2 * ((a:ℚ) * 2 ^ m) := by
        have h2 : (0:ℚ) < (2:ℚ) ^ ((m:ℤ) + 1) := zpow_pos (by norm_num) _
        have h3 := mul_lt_mul_of_pos_right hkey h2
        calc (b:ℚ) = (2:ℚ) ^ (e - 24) * (b:ℚ) * (2:ℚ) ^ ((m:ℤ) + 1) := by
              rw [show (2:ℚ) ^ (e - 24) * (b:ℚ) * (2:ℚ) ^ ((m:ℤ) + 1)
                  = (b:ℚ) * ((2:ℚ) ^ (e - 24) * (2:ℚ) ^ ((m:ℤ) + 1)) from by ring,
                ← zpow_add₀ (by norm_num : (2:ℚ) ≠ 0),
                show e - 24 + ((m:ℤ) + 1) = 0 from by omega]
              norm_num
        _ < (a:ℚ) * (2:ℚ) ^ ((m:ℤ) + 1) := h3
        _ = 2 * ((a:ℚ) * 2 ^ m) := by
              rw [show ((m:ℤ) + 1) = (((m + 1 : ℕ)):ℤ) from by push_cast; ring,
                zpow_natCast]
              ring
      exact_mod_cast hq
  · rw [roundQ_eq_neg a b e hedef hsh]
    obtain ⟨k, hk⟩ : ∃ k : ℕ, e - 23 = (k:ℤ) := ⟨(e - 23).toNat, by omega⟩
    have hkt : (-(23 - e)).toNat = k := by omega
    show 1 ≤ rneDiv (a:Int) ((b:Int) * 2 ^ (-(23 - e)).toNat)
    rw [hkt]
    apply rneDiv_pos
    · positivity
    · have hq : (b:ℚ) * 2 ^ k < 2 * (a:ℚ) := by
        have h2 := mul_lt_mul_of_pos_left hkey (show (0:ℚ) < 2 from by norm_num)
        calc (b:ℚ) * 2 ^ k = (2:ℚ) ^ ((k:ℤ)) * (b:ℚ) := by rw [zpow_natCast]; ring
        _ = 2 * ((2:ℚ) ^ (e - 24) * (b:ℚ)) := by
              rw [show ((k:ℤ)) = (e - 24) + 1 from by omega,
                zpow_add₀ (by norm_num : (2:ℚ) ≠ 0), zpow_one]
              ring
        _ < 2 * (a:ℚ) := h2
      exact_mod_cast hq

/-- `roundQ` is exact on integers up to `2 ^ 24`. -/
theorem roundQ_exact (a : Nat) (ha : 0 < a) (h24 : a ≤ 2 ^ 24) :
    fval (roundQ a 1) = (a : ℚ) := by
  rcases eq_or_lt_of_le h24 with he | hlt
  · rw [he, show roundQ (2 ^ 24) 1 = (8388608, 1) from by decide]
    norm_num [fval]
  · have hqe := qExp_le a 1 ha (by norm_num)
    push_cast at hqe
    rw [mul_one] at hqe
    have hle : qExp a 1 ≤ 23 := by
      by_contra hgt
      push_neg at hgt
      have h1 : (2:ℚ) ^ (24:ℤ) ≤ (2:ℚ) ^ (qExp a 1) :=
        zpow_le_zpow_right₀ (by norm_num) (by omega)
      have ha' : (a:ℚ) < (2:ℚ) ^ (24:ℤ) := by
        rw [show (24 : ℤ) = ((24:ℕ):ℤ) from by norm_num, qpow_natCast]
        exact_mod_cast hlt
      linarith
    obtain ⟨e, hedef⟩ : ∃ e : Int, e = max (qExp a 1) (-126) := ⟨_, rfl⟩
    have hee : e ≤ 23 := by omega
    have he126 : -126 ≤ e := by omega
    have hsh : 0 ≤ 23 - e := by omega
    rw [roundQ_eq_pos a 1 e hedef hsh]
    obtain ⟨m, hm⟩ : ∃ m : ℕ, 23 - e = (m:ℤ) := ⟨(23 - e).toNat, by omega⟩
    have hmt : (23 - e).toNat = m := by omega
    show ((rneDiv ((a:Int) * 2 ^ (23 - e).toNat) ((1:ℕ):Int) : ℤ) : ℚ) * 2 ^ (e - 23) = (a:ℚ)
    rw [hmt, show ((1:ℕ):Int) = 1 from rfl, rneDiv_one]
    push_cast
    rw [show (e - 23 : ℤ) = -((m:ℕ):ℤ) from by omega, zpow_neg, zpow_natCast]
    rw [mul_assoc, mul_inv_cancel₀ (by positivity), mul_one]

/-- Adding 1.0 to a nonnegative integer below `2 ^ 24` is exact in binary32. -/
theorem addF32_one_exact (m : Nat) (h : m + 1 ≤ 2 ^ 24) :
    fval (addF32 ((m : Int), 0) (1, 0)) = (m : ℚ) + 1 := by
  have h1 : addF32 ((m : Int), 0) (1, 0) = roundF32R ((m:Int) + 1) 0 := by
    unfold addF32
    norm_num
  have ht : ((m:Int) + 1).toNat = m + 1 := by omega
  have h2 : roundF32R ((m:Int) + 1) 0 = roundQ (m + 1) 1 := by
    unfold roundF32R
    rw [if_neg (by omega : ¬ ((m:Int) + 1 = 0)), if_pos (by omega : (0:ℤ) < (m:Int) + 1), ht]
    unfold roundValPos
    norm_num
  rw [h1, h2, roundQ_exact (m + 1) (by omega) h]
  push_cast
  ring

/-- The binary32 increment by 1.0 stalls at `2 ^ 24`: the sum `2 ^ 24 + 1`
rounds back to `2 ^ 24` (round-to-nearest, ties-to-even). -/
theorem addF32_stall : fval (addF32 ((2:Int) ^ 24, 0) (1, 0)) = (2:ℚ) ^ 24 := by
  rw [show addF32 ((2:Int) ^ 24, 0) (1, 0) = (8388608, 1) from by decide]
  norm_num [fval]

/-- A pair with mantissa at least 1 has value at least `2 ^ exponent`. -/
theorem fval_ge_exp (p : Int × Int) (h : 1 ≤ p.1) : (2:ℚ) ^ p.2 ≤ fval p := by
  unfold fval
  have h1 : (1:ℚ) ≤ ((p.1 : ℤ) : ℚ) := by exact_mod_cast h
  have h2 : (0:ℚ) ≤ (2:ℚ) ^ p.2 := le_of_lt (zpow_pos (by norm_num) _)
  nlinarith

/-- A pair with mantissa at least 1 has strictly positive value. -/
theorem fval_pos (p : Int × Int) (h : 1 ≤ p.1) : 0 < fval p :=
  lt_of_lt_of_le (zpow_pos (by norm_num) p.2) (fval_ge_exp p h)

/-- `roundValPos` of a value strictly above `2 ^ -150` has positive mantissa
and exponent at least `-149`. -/
theorem roundValPos_pos (a : Nat) (e : Int) (ha : 0 < a)
    (h : (2:ℚ) ^ (-150 : ℤ) < (a:ℚ) * (2:ℚ) ^ e) :
    1 ≤ (roundValPos a e).1 ∧ -149 ≤ (roundValPos a e).2 := by
  unfold roundValPos
  by_cases he : 0 ≤ e
  · rw [if_pos he]
    refine ⟨?_, roundQ_snd_ge _ _⟩
    apply roundQ_fst_pos _ _ (Nat.mul_pos ha (Nat.two_pow_pos _)) (by norm_num)
    obtain ⟨n, rfl⟩ : ∃ n : ℕ, e = (n : ℤ) := ⟨e.toNat, by omega⟩
    rw [Int.toNat_natCast]
    rw [zpow_natCast] at h
    push_cast
    calc (2:ℚ) ^ (-150:ℤ) * 1 = (2:ℚ) ^ (-150:ℤ) := mul_one _
    _ < (a:ℚ) * 2 ^ n := h
  · rw [if_neg he]
    refine ⟨?_, roundQ_snd_ge _ _⟩
    apply roundQ_fst_pos _ _ ha (Nat.two_pow_pos _)
    obtain ⟨n, rfl⟩ : ∃ n : ℕ, e = -(n : ℤ) := ⟨(-e).toNat, by omega⟩
    have hneg : (-(-(n:ℤ))).toNat = n := by omega
    rw [hneg]
    have h2 := mul_lt_mul_of_pos_right h (zpow_pos (show (0:ℚ) < 2 from by norm_num) ((n:ℤ)))
    have hcan : (2:ℚ) ^ (-(n:ℤ)) * (2:ℚ) ^ ((n:ℤ)) = 1 := by
      rw [← zpow_add₀ (by norm_num : (2:ℚ) ≠ 0), show -(n:ℤ) + (n:ℤ) = 0 from by ring,
        zpow_zero]
    calc (2:ℚ) ^ (-150:ℤ) * ((2 ^ n : ℕ) : ℚ) = (2:ℚ) ^ (-150:ℤ) * (2:ℚ) ^ ((n:ℤ)) := by
          rw [qpow_natCast]
    _ < (a:ℚ) * (2:ℚ) ^ (-(n:ℤ)) * (2:ℚ) ^ ((n:ℤ)) := h2
    _ = (a:ℚ) * ((2:ℚ) ^ (-(n:ℤ)) * (2:ℚ) ^ ((n:ℤ))) := by ring
    _ = (a:ℚ) := by rw [hcan, mul_one]

/-- `mulF32` of positive-mantissa pairs whose product value exceeds `2 ^ -150`
has positive mantissa. -/
theorem mulF32_pos (x y : Int × Int) (hx : 1 ≤ x.1) (hy : 1 ≤ y.1)
    (h : (2:ℚ) ^ (-150 : ℤ) < fval x * fval y) :
    1 ≤ (mulF32 x y).1 := by
  unfold mulF32
  have hm : 0 < x.1 * y.1 := mul_pos (by omega) (by omega)
  unfold roundF32R
  rw [if_neg (ne_of_gt hm), if_pos hm]
  have hcast : (((x.1 * y.1).toNat : ℕ) : ℚ) = ((x.1 * y.1 : ℤ) : ℚ) := by
    exact_mod_cast Int.toNat_of_nonneg (le_of_lt hm)
  have hval : (((x.1 * y.1).toNat : ℕ) : ℚ) * (2:ℚ) ^ (x.2 + y.2) = fval x * fval y := by
    rw [hcast]
    unfold fval
    push_cast
    rw [zpow_add₀ (by norm_num : (2:ℚ) ≠ 0)]
    ring
  exact (roundValPos_pos (x.1 * y.1).toNat (x.2 + y.2) (by omega) (by rw [hval]; exact h)).1

/-- The shape `divF32` takes on positive-mantissa arguments. -/
theorem divF32_eq (x y : Int × Int) (hx : 1 ≤ x.1) (hy : 1 ≤ y.1) :
    divF32 x y =
      ((if 0 ≤ x.2 - y.2 then roundQ (x.1.natAbs * 2 ^ (x.2 - y.2).toNat) y.1.natAbs
        else roundQ x.1.natAbs (y.1.natAbs * 2 ^ (-(x.2 - y.2)).toNat)).1,
       (if 0 ≤ x.2 - y.2 then roundQ (x.1.natAbs * 2 ^ (x.2 - y.2).toNat) y.1.natAbs
        else roundQ x.1.natAbs (y.1.natAbs * 2 ^ (-(x.2 - y.2)).toNat)).2) := by
  have hs : ((0 ≤ x.1) = (0 ≤ y.1)) := propext ⟨fun _ => by omega, fun _ => by omega⟩
  unfold divF32
  rw [if_neg (by omega : ¬ x.1 = 0), decide_eq_true hs]
  rfl

/-- `divF32` of positive-mantissa pairs whose quotient exceeds `2 ^ -150` has
positive mantissa, and its exponent is at least `-149`. -/
theorem divF32_pos (x y : Int × Int) (hx : 1 ≤ x.1) (hy : 1 ≤ y.1)
    (h : (2:ℚ) ^ (-150 : ℤ) * fval y < fval x) :
    1 ≤ (divF32 x y).1 ∧ -149 ≤ (divF32 x y).2 := by
  rw [divF32_eq x y hx hy]
  obtain ⟨nx, hx1, hx2⟩ : ∃ n : ℕ, x.1 = (n:ℤ) ∧ x.1.natAbs = n :=
    ⟨x.1.toNat, by omega, by omega⟩
  obtain ⟨ny, hy1, hy2⟩ : ∃ n : ℕ, y.1 = (n:ℤ) ∧ y.1.natAbs = n :=
    ⟨y.1.toNat, by omega, by omega⟩
  have hxa : ((x.1.natAbs : ℕ) : ℚ) = ((x.1 : ℤ) : ℚ) := by
    rw [hx2, hx1]
    push_cast
    ring
  have hya : ((y.1.natAbs : ℕ) : ℚ) = ((y.1 : ℤ) : ℚ) := by
    rw [hy2, hy1]
    push_cast
    ring
  have hq : (2:ℚ) ^ (-150:ℤ) * ((y.1 : ℤ) : ℚ) < ((x.1 : ℤ) : ℚ) * (2:ℚ) ^ (x.2 - y.2) := by
    have hy2 : (2:ℚ) ^ y.2 * (2:ℚ) ^ (-y.2) = 1 := by
      rw [← zpow_add₀ (by norm_num : (2:ℚ) ≠ 0), show y.2 + -y.2 = 0 from by ring, zpow_zero]
    have hxy : (2:ℚ) ^ x.2 * (2:ℚ) ^ (-y.2) = (2:ℚ) ^ (x.2 - y.2) := by
      rw [← zpow_add₀ (by norm_num : (2:ℚ) ≠ 0), show x.2 + -y.2 = x.2 - y.2 from by ring]
    have h2 := mul_lt_mul_of_pos_right h (zpow_pos (show (0:ℚ) < 2 from by norm_num) (-y.2))
    simp only [fval] at h2
    calc (2:ℚ) ^ (-150:ℤ) * ((y.1 : ℤ) : ℚ)
        = (2:ℚ) ^ (-150:ℤ) * (((y.1 : ℤ) : ℚ) * (2:ℚ) ^ y.2) * (2:ℚ) ^ (-y.2) := by
          rw [show (2:ℚ) ^ (-150:ℤ) * (((y.1 : ℤ) : ℚ) * (2:ℚ) ^ y.2) * (2:ℚ) ^ (-y.2)
              = (2:ℚ) ^ (-150:ℤ) * ((y.1 : ℤ) : ℚ) * ((2:ℚ) ^ y.2 * (2:ℚ) ^ (-y.2))
            from by ring, hy2, mul_one]
    _ < ((x.1 : ℤ) : ℚ) * (2:ℚ) ^ x.2 * (2:ℚ) ^ (-y.2) := h2
    _ = ((x.1 : ℤ) : ℚ) * (2:ℚ) ^ (x.2 - y.2) := by rw [mul_assoc, hxy]
  by_cases he : 0 ≤ x.2 - y.2
  · rw [if_pos he]
    refine ⟨?_, roundQ_snd_ge _ _⟩
    apply roundQ_fst_pos _ _ (Nat.mul_pos (by omega) (Nat.two_pow_pos _)) (by omega)
    obtain ⟨n, hn⟩ : ∃ n : ℕ, x.2 - y.2 = (n : ℤ) := ⟨(x.2 - y.2).toNat, by omega⟩
    have hnt : (x.2 - y.2).toNat = n := by omega
    rw [hnt]
    rw [hn, zpow_natCast] at hq
    push_cast
    rw [hxa, hya]
    exact hq
  · rw [if_neg he]
    refine ⟨?_, roundQ_snd_ge _ _⟩
    apply roundQ_fst_pos _ _ (by omega) (Nat.mul_pos (by omega) (Nat.two_pow_pos _))
    obtain ⟨n, hn⟩ : ∃ n : ℕ, x.2 - y.2 = -(n : ℤ) := ⟨(-(x.2 - y.2)).toNat, by omega⟩
    have hnt : (-(x.2 - y.2)).toNat = n := by omega
    rw [hnt]
    have hcan : (2:ℚ) ^ (-(n:ℤ)) * (2:ℚ) ^ ((n:ℤ)) = 1 := by
      rw [← zpow_add₀ (by norm_num : (2:ℚ) ≠ 0), show -(n:ℤ) + (n:ℤ) = 0 from by ring,
        zpow_zero]
    rw [hn] at hq
    have h2 := mul_lt_mul_of_pos_right hq (zpow_pos (show (0:ℚ) < 2 from by norm_num) ((n:ℤ)))
    push_cast
    rw [hxa, hya]
    calc (2:ℚ) ^ (-150:ℤ) * (((y.1 : ℤ) : ℚ) * 2 ^ n)
        = (2:ℚ) ^ (-150:ℤ) * ((y.1 : ℤ) : ℚ) * (2:ℚ) ^ ((n:ℤ)) := by
          rw [zpow_natCast]; ring
    _ < ((x.1 : ℤ) : ℚ) * (2:ℚ) ^ (-(n:ℤ)) * (2:ℚ) ^ ((n:ℤ)) := h2
    _ = ((x.1 : ℤ) : ℚ) * ((2:ℚ) ^ (-(n:ℤ)) * (2:ℚ) ^ ((n:ℤ))) := by ring
    _ = ((x.1 : ℤ) : ℚ) := by rw [hcan, mul_one]

/-- Multiplying the sample rate (value at least 1) by a rounded positive
fraction (mantissa at least 1, exponent at least -149) gives a strictly
positive binary32 value. -/
theorem mul_sr_frac_pos (sr f : Int × Int) (hsr1 : 1 ≤ sr.1) (hsrv : 1 ≤ fval sr)
    (hf1 : 1 ≤ f.1) (hf2 : -149 ≤ f.2) : 0 < fval (mulF32 sr f) := by
  apply fval_pos
  apply mulF32_pos sr f hsr1 hf1
  have hfd : (2:ℚ) ^ f.2 ≤ fval f := fval_ge_exp f hf1
  have h149 : (2:ℚ) ^ (-149:ℤ) ≤ (2:ℚ) ^ f.2 := zpow_le_zpow_right₀ (by norm_num) hf2
  have h150 : (2:ℚ) ^ (-150:ℤ) < (2:ℚ) ^ (-149:ℤ) :=
    zpow_lt_zpow_right₀ (by norm_num) (by norm_num)
  have hfpos : 0 < fval f := fval_pos f hf1
  calc (2:ℚ) ^ (-150:ℤ) < fval f := lt_of_lt_of_le h150 (le_trans h149 hfd)
  _ = 1 * fval f := (one_mul _).symm
  _ ≤ fval sr * fval f := mul_le_mul_of_nonneg_right hsrv (le_of_lt hfpos)


/-- `VoiceState` from `engine.rs`.  `end` is a Lean keyword, hence `end_`. -/
structure VoiceState where
  active : Bool
  position : ℚ
  end_ : Nat
  velocity : ℚ
  gain : ℚ
  tempo : TempoState
deriving DecidableEq, Repr

/-- `Voice` from `engine.rs`.  The attached-process list and the process-owned
tempo list are modelled in their freshly-loaded (empty) configuration; the
sequencer process itself is modelled separately on `VoiceState` below, exactly
as `Seq::process` receives it in the source. -/
structure Voice where
  samples : List Int
  sample_rate : Nat
  channels : Nat
  state : VoiceState
deriving DecidableEq, Repr

/-- Result of one `Voice::process` call: the updated voice, the accumulator
(the DMA sample this call wrote through `*acc`), and the list of indices of
`samples` that the call read. -/
structure ProcOut where
  voice : Voice
  acc : Int
  reads : List Nat
deriving DecidableEq, Repr

namespace Voice

/-- `Voice::new` from `engine.rs`: position 0, `end = samples.len() / channels - 1`,
velocity and gain 1, inactive. -/
def new (samples : List Int) (sample_rate : Nat) (num_channels : Nat)
    (tempo : TempoState) : Voice :=
  { samples := samples
    sample_rate := sample_rate
    channels := num_channels
    state :=
      { active := false
        position := 0
        end_ := samples.length / num_channels - 1
        velocity := 1
        gain := 1
        tempo := tempo } }

/-- `Voice::pause` from `engine.rs`: clears the active flag, nothing else. -/
def pause (v : Voice) : Voice :=
  { v with state := { v.state with active := false } }

/-- `Voice::resume` from `engine.rs`: sets the active flag unconditionally (the
source additionally prints a warning when a non-voice-owned tempo is inactive,
which changes no state). -/
def resume (v : Voice) : Voice :=
  { v with state := { v.state with active := true } }

/-- `Voice::process` from `engine.rs`, one `(frame, channel)` invocation.
`acc` is the current value of the DMA sample `*acc`; the returned `reads` lists
every `samples[...]` index the call evaluates.  Out-of-range accesses (which
would panic in Rust) are modelled total with `getD _ 0`; the safety claim shows
they stay in range.  Structure mirrors the source: inactive early-return,
voice-owned tempo update, the `position as usize` bounds gate, mono/stereo
channel routing with its early returns, plain or interpolated sample read,
the saturating `as i16` accumulate, and the advance guarded by
`ch == self.channels - 1`.  The position arithmetic is exact over ℚ; on the
run analysed by the claims the positions are integers, where
`addF32_one_exact` shows the program's binary32 increment agrees with the
exact one below `2^24` and `addF32_stall` shows where agreement stops, so the
emission claim is scoped to tracks of at most `2^24` frames. -/
def process (v : Voice) (acc : Int) (ch : Nat) : ProcOut :=
  if !v.state.active then ⟨v, acc, []⟩ else
  let st0 := v.state
  let st :=
    if st0.tempo.mode = TempoMode.Voice ∨ st0.tempo.mode = TempoMode.TBD then
      { st0 with tempo := st0.tempo.update1 }
    else st0
  let idx := ratToUsize st.position
  if idx ≥ st.end_ then ⟨{ v with state := st }, acc, []⟩ else
  if v.channels = 1 ∧ ¬ ch < 2 then ⟨{ v with state := st }, acc, []⟩ else
  if v.channels ≠ 1 ∧ ch ≥ v.channels then ⟨{ v with state := st }, acc, []⟩ else
  let ch' := if v.channels = 1 then 0 else ch
  let i0 := idx * v.channels + ch' % v.channels
  let s0 : ℚ := (v.samples.getD i0 0 : Int)
  let sampleReads : ℚ × List Nat :=
    if st.velocity ≠ 1 then
      let frac := ratFract st.position
      let i1 := (idx + 1) * v.channels + ch' % v.channels
      let s1 : ℚ := (v.samples.getD i1 0 : Int)
      (s0 * (1 - frac) + s1 * frac, [i0, i1])
    else
      (s0, [i0])
  let acc' := wrap16 (acc + i16cast (sampleReads.1 * st.gain))
  let st' :=
    if ch' = v.channels - 1 then
      { st with position := st.position + st.velocity }
    else st
  ⟨{ v with state := st' }, acc', sampleReads.2⟩

end Voice

/-- One output frame of `Conductor::coordinate` with two output channels and a
single voice: each channel's DMA sample is zeroed and then the voice's process
step is invoked for channel 0 and then channel 1.  Returns the voice after the
frame together with the two written samples. -/
def coordinateFrame2 (v : Voice) : Voice × Int × Int :=
  let r0 := v.process 0 0
  let r1 := r0.voice.process 0 1
  (r1.voice, r0.acc, r1.acc)

/-- An active voice over a 4-frame mono track with pairwise distinct samples,
playing forward at native rate. -/
def monoDemoVoice : Voice :=
  { samples := [0, 1000, 2000, 3000]
    sample_rate := 48000
    channels := 1
    state :=
      { active := true, position := 0, end_ := 3, velocity := 1, gain := 1
        tempo := TempoState.new 48000 } }

/-- C1: the claim fails on the code for mono tracks.  After the mono channel
rewrite (`ch = 0`), the advance guard `ch == self.channels - 1` holds on both
output channels, so within one frame output channel 0 receives sample 0,
the position advances, output channel 1 receives sample 1 (not the same
value), and the position ends up advanced by `2 × velocity` rather than by
`velocity` once on the last output channel. -/
theorem C1_mono_routing_bug :
    (coordinateFrame2 monoDemoVoice).2.1 = 0 ∧
    (coordinateFrame2 monoDemoVoice).2.2 = 1000 ∧
    (coordinateFrame2 monoDemoVoice).2.1 ≠ (coordinateFrame2 monoDemoVoice).2.2 ∧
    (coordinateFrame2 monoDemoVoice).1.state.position =
      monoDemoVoice.state.position + 2 * monoDemoVoice.state.velocity := by
  norm_num [coordinateFrame2, monoDemoVoice, Voice.process, ratToUsize, ratTrunc,
    ratFract, TempoState.new, TempoState.update1, wrap16, i16cast, List.getD]

/-- Characterisation of the sample reads of one `Voice::process` call: a read
only happens once the `⌊position⌋ ∈ [0, end)` gate has passed, and every read
index is `⌊position⌋ * channels + r` or `(⌊position⌋ + 1) * channels + r` for
some in-range channel offset `r`. -/
theorem Voice.process_reads_mem (v : Voice) (acc : Int) (ch : Nat) :
    ∀ i ∈ (v.process acc ch).reads,
      ratToUsize v.state.position < v.state.end_ ∧
      ∃ r, r < v.channels ∧
        (i = ratToUsize v.state.position * v.channels + r ∨
         i = (ratToUsize v.state.position + 1) * v.channels + r) := by
  intro i hi
  unfold Voice.process at hi
  dsimp only at hi
  repeat' split at hi
  all_goals try exact absurd hi (List.not_mem_nil _)
  all_goals dsimp only at *
  all_goals
    simp only [List.mem_cons, List.mem_singleton, List.not_mem_nil, or_false] at hi
  all_goals refine ⟨by omega, ?_⟩
  all_goals first
    | exact ⟨0 % v.channels, Nat.mod_lt _ (by omega), hi⟩
    | exact ⟨ch % v.channels, Nat.mod_lt _ (by omega), hi⟩
    | exact ⟨0 % v.channels, Nat.mod_lt _ (by omega), Or.inl hi⟩
    | exact ⟨ch % v.channels, Nat.mod_lt _ (by omega), Or.inl hi⟩

/-- C5: for every voice over a mono or stereo track whose interleaved buffer is
non-empty (a whole number of frames), with `end` as `Voice::new` computes it,
one mixing step never reads `samples[i]` outside `[0, len(samples))` — for any
position (including negative positions reached by reverse playback, which the
saturating `as usize` cast sends to frame 0), any velocity, and any output
channel. -/
theorem C5_mixer_reads_in_bounds (v : Voice) (acc : Int) (ch : Nat)
    (hch : v.channels = 1 ∨ v.channels = 2)
    (hdvd : v.channels ∣ v.samples.length)
    (hne : v.samples ≠ [])
    (hend : v.state.end_ = v.samples.length / v.channels - 1) :
    ∀ i ∈ (v.process acc ch).reads, i < v.samples.length := by
  intro i hi
  obtain ⟨hidx, r, hr, hcase⟩ := Voice.process_reads_mem v acc ch i hi
  obtain ⟨N, hN⟩ := hdvd
  have hlen : 0 < v.samples.length := List.length_pos.mpr hne
  rcases hch with hc | hc <;> rw [hc] at hN hend hr hcase <;>
    rw [hN] at hend ⊢ <;>
    simp only [Nat.mul_div_cancel_left _ (by omega : (0:Nat) < 1),
      Nat.mul_div_cancel_left _ (by omega : (0:Nat) < 2)] at hend <;>
    omega

/-- C5 witness: the bound holds, with all hypotheses discharged, at a concrete
mono voice. -/
theorem C5_mixer_reads_in_bounds_witness :
    (monoDemoVoice.channels = 1 ∨ monoDemoVoice.channels = 2) ∧
    monoDemoVoice.channels ∣ monoDemoVoice.samples.length ∧
    monoDemoVoice.samples ≠ [] ∧
    monoDemoVoice.state.end_ = monoDemoVoice.samples.length / monoDemoVoice.channels - 1 ∧
    (∀ i ∈ (monoDemoVoice.process 0 0).reads, i < monoDemoVoice.samples.length) :=
  ⟨by decide, by decide, by decide, by decide,
   C5_mixer_reads_in_bounds monoDemoVoice 0 0 (by decide) (by decide) (by decide) (by decide)⟩

/-- Casting a natural number through ℚ and back with the saturating
`as usize` model is the identity. -/
theorem ratToUsize_natCast (m : Nat) : ratToUsize (m : ℚ) = m := by
  simp [ratToUsize, ratTrunc, Int.floor_natCast]

/-- One `Voice::process` call on the last output channel the voice reacts to
(`self.channels - 1`), the only call of a frame that changes the voice state
at velocity-1 playback. -/
def Voice.stepLast (v : Voice) : ProcOut := v.process 0 (v.channels - 1)

/-- Iterated state-advancing process calls, starting from `v`. -/
def Voice.runLast (v : Voice) : Nat → Voice
  | 0 => v
  | k+1 => ((Voice.runLast v k).stepLast).voice

/-- One advancing call of an active velocity-1 voice sitting at integer frame
`m < end` reads exactly frame `m` and moves the position to `m + 1`, keeping
all other playback fields. -/
theorem Voice.stepLast_emit (v : Voice) (m : Nat)
    (hch : v.channels = 1 ∨ v.channels = 2)
    (hact : v.state.active = true)
    (hvel : v.state.velocity = 1)
    (hpos : v.state.position = (m : ℚ))
    (hlt : m < v.state.end_) :
    v.stepLast.reads = [m * v.channels + (v.channels - 1) % v.channels] ∧
    v.stepLast.voice.state.position = ((m + 1 : Nat) : ℚ) ∧
    v.stepLast.voice.state.active = true ∧
    v.stepLast.voice.state.velocity = 1 ∧
    v.stepLast.voice.state.end_ = v.state.end_ ∧
    v.stepLast.voice.channels = v.channels ∧
    v.stepLast.voice.samples = v.samples := by
  unfold Voice.stepLast Voice.process
  dsimp only
  simp only [hact, Bool.not_true, Bool.false_eq_true, if_false]
  by_cases hmode : v.state.tempo.mode = TempoMode.Voice ∨ v.state.tempo.mode = TempoMode.TBD <;>
    [rw [if_pos hmode]; rw [if_neg hmode]] <;>
    (try dsimp only) <;>
    rw [hpos] <;>
    simp only [ratToUsize_natCast] <;>
    rw [if_neg (by omega)] <;>
    rcases hch with hc | hc <;>
    rw [hc] <;>
    norm_num [hvel, hact]

/-- One advancing call of an active voice sitting at an integer frame
`m ≥ end` reads nothing and leaves the position where it is. -/
theorem Voice.stepLast_stuck (v : Voice) (m : Nat)
    (hact : v.state.active = true)
    (hpos : v.state.position = (m : ℚ))
    (hge : v.state.end_ ≤ m) :
    v.stepLast.reads = [] ∧
    v.stepLast.voice.state.position = (m : ℚ) ∧
    v.stepLast.voice.state.active = true ∧
    v.stepLast.voice.state.velocity = v.state.velocity ∧
    v.stepLast.voice.state.end_ = v.state.end_ ∧
    v.stepLast.voice.channels = v.channels ∧
    v.stepLast.voice.samples = v.samples := by
  unfold Voice.stepLast Voice.process
  dsimp only
  simp only [hact, Bool.not_true, Bool.false_eq_true, if_false]
  by_cases hmode : v.state.tempo.mode = TempoMode.Voice ∨ v.state.tempo.mode = TempoMode.TBD <;>
    [rw [if_pos hmode]; rw [if_neg hmode]] <;>
    (try dsimp only) <;>
    rw [hpos] <;>
    simp only [ratToUsize_natCast] <;>
    rw [if_pos (by omega)] <;>
    norm_num [hact, hpos]

/-- After `k` advancing calls a started (position 0, velocity 1) voice sits at
frame `min k end`, with the playback fields preserved. -/
theorem Voice.runLast_spec (v : Voice) (k : Nat)
    (hch : v.channels = 1 ∨ v.channels = 2)
    (hact : v.state.active = true)
    (hvel : v.state.velocity = 1)
    (hpos : v.state.position = 0) :
    (v.runLast k).state.position = ((min k v.state.end_ : Nat) : ℚ) ∧
    (v.runLast k).state.active = true ∧
    (v.runLast k).state.velocity = 1 ∧
    (v.runLast k).state.end_ = v.state.end_ ∧
    (v.runLast k).channels = v.channels ∧
    (v.runLast k).samples = v.samples := by
  induction k with
  | zero =>
    refine ⟨?_, hact, hvel, rfl, rfl, rfl⟩
    simpa [Voice.runLast] using hpos
  | succ k ih =>
    obtain ⟨hp, ha, hv, he, hc, hs⟩ := ih
    have hrl : v.runLast (k+1) = (v.runLast k).stepLast.voice := rfl
    by_cases hlt : min k v.state.end_ < v.state.end_
    · obtain ⟨hr1, hp1, ha1, hv1, he1, hc1, hs1⟩ :=
        Voice.stepLast_emit (v.runLast k) (min k v.state.end_)
          (by rw [hc]; exact hch) ha hv hp (by omega)
      refine ⟨?_, ?_, ?_, ?_, ?_, ?_⟩ <;> rw [hrl]
      · rw [hp1]; norm_cast; omega
      · exact ha1
      · exact hv1
      · rw [he1, he]
      · rw [hc1, hc]
      · rw [hs1, hs]
    · obtain ⟨hr1, hp1, ha1, hv1, he1, hc1, hs1⟩ :=
        Voice.stepLast_stuck (v.runLast k) (min k v.state.end_) ha hp (by omega)
      refine ⟨?_, ?_, ?_, ?_, ?_, ?_⟩ <;> rw [hrl]
      · rw [hp1]; norm_cast; omega
      · exact ha1
      · rw [hv1]; exact hv
      · rw [he1, he]
      · rw [hc1, hc]
      · rw [hs1, hs]

/-- The `k`-th advancing call of a started velocity-1 voice reads exactly frame
`k` while `k < end`, and nothing from then on. -/
theorem Voice.runLast_reads (v : Voice) (k : Nat)
    (hch : v.channels = 1 ∨ v.channels = 2)
    (hact : v.state.active = true)
    (hvel : v.state.velocity = 1)
    (hpos : v.state.position = 0) :
    ((v.runLast k).stepLast.reads ≠ [] ↔ k < v.state.end_) ∧
    (k < v.state.end_ →
      (v.runLast k).stepLast.reads
        = [k * v.channels + (v.channels - 1) % v.channels]) := by
  obtain ⟨hp, ha, hv, he, hc, hs⟩ := Voice.runLast_spec v k hch hact hvel hpos
  by_cases hlt : k < v.state.end_
  · have hm : min k v.state.end_ = k := by omega
    rw [hm] at hp
    obtain ⟨hr1, -⟩ :=
      Voice.stepLast_emit (v.runLast k) k (by rw [hc]; exact hch) ha hv hp (by omega)
    rw [hr1, hc]
    refine ⟨by simp [hlt], fun _ => rfl⟩
  · have hm : min k v.state.end_ = v.state.end_ := by omega
    rw [hm] at hp
    obtain ⟨hr1, -⟩ :=
      Voice.stepLast_stuck (v.runLast k) v.state.end_ ha hp (by omega)
    rw [hr1]
    exact ⟨by simp [hlt], fun hk => absurd hk hlt⟩

/-- A voice at fractional position 5/2 with velocity 1/2 on the 4-frame mono
track of `monoDemoVoice`. -/
def interpDemoVoice : Voice :=
  { samples := [0, 1000, 2000, 3000]
    sample_rate := 48000
    channels := 1
    state :=
      { active := true, position := 5/2, end_ := 3, velocity := 1/2, gain := 1
        tempo := TempoState.new 48000 } }

/-- The same voice over a track differing only in its final frame. -/
def interpDemoVoice2 : Voice :=
  { interpDemoVoice with samples := [0, 1000, 2000, -3000] }

/-- C10: counterexample to "the final frame of every track is never mixed into
the output" read unconditionally.  At velocity 1/2 and position 5/2 (with
`N = 4` frames, `end = 3`), the gate `⌊position⌋ ∈ [0, end)` passes and the
interpolation read touches frame 3 = N - 1, whose value changes the mixed
output sample (2500 versus -500). -/
theorem C10_final_frame_counterexample :
    interpDemoVoice.samples.length / interpDemoVoice.channels - 1 = 3 ∧
    3 ∈ (interpDemoVoice.process 0 0).reads ∧
    (interpDemoVoice.process 0 0).acc = 2500 ∧
    (interpDemoVoice2.process 0 0).acc = -500 ∧
    (interpDemoVoice.process 0 0).acc ≠ (interpDemoVoice2.process 0 0).acc := by
  have h52 : ratToUsize (5/2 : ℚ) = 2 := by
    norm_num [ratToUsize, ratTrunc]
    decide
  have hfr : ratFract (5/2 : ℚ) = 1/2 := by norm_num [ratFract, ratTrunc]
  have hg2 : ([0, 1000, 2000, 3000] : List Int).getD 2 0 = 2000 := by decide
  have hg3 : ([0, 1000, 2000, 3000] : List Int).getD 3 0 = 3000 := by decide
  have hg2' : ([0, 1000, 2000, -3000] : List Int).getD 2 0 = 2000 := by decide
  have hg3' : ([0, 1000, 2000, -3000] : List Int).getD 3 0 = -3000 := by decide
  norm_num [interpDemoVoice, interpDemoVoice2, Voice.process, h52, hfr,
    hg2, hg3, hg2', hg3', TempoState.new, TempoState.update1, wrap16, i16cast,
    ratTrunc]

/-- C10 (amended): for a voice over a track of `N ≥ 1` frames (mono or stereo)
with `N ≤ 2^24`, `Voice::new` sets `end = N - 1`; samples are read only when
`⌊position⌋` lies in `[0, end)`; and forward playback at velocity 1.0 from
position 0 reads exactly frames 0 through N - 2 — the k-th advancing call
reads frame k while `k < N - 1` and nothing afterwards — so at velocity 1.0
the final frame is never mixed (at other velocities it can enter through the
interpolation read at `⌊position⌋ + 1`).  The bound `N ≤ 2^24` keeps the
model faithful to the binary32 program: along the run every position is an
integer below `2^24`, where the f32 increment `position + velocity` is exact
(fourth conjunct), while at `2^24` the increment stalls (fifth conjunct), so
frames past `2^24` would never be reached. -/
theorem C10_end_index_and_emission (v : Voice) (N : Nat) (t : TempoState)
    (hch : v.channels = 1 ∨ v.channels = 2)
    (hlen : v.samples.length = v.channels * N)
    (hN24 : N ≤ 2 ^ 24)
    (hend : v.state.end_ = N - 1)
    (hact : v.state.active = true)
    (hvel : v.state.velocity = 1)
    (hpos : v.state.position = 0) :
    (Voice.new v.samples v.sample_rate v.channels t).state.end_ = N - 1 ∧
    (∀ (w : Voice) (acc : Int) (ch : Nat),
      (w.process acc ch).reads ≠ [] →
        ratToUsize w.state.position < w.state.end_) ∧
    (∀ k : Nat,
      ((v.runLast k).stepLast.reads ≠ [] ↔ k < N - 1) ∧
      (k < N - 1 →
        (v.runLast k).stepLast.reads
          = [k * v.channels + (v.channels - 1) % v.channels])) ∧
    (∀ k : Nat, k < N - 1 →
      fval (addF32 ((k : Int), 0) (1, 0))
        = (v.runLast k).state.position + v.state.velocity) ∧
    fval (addF32 ((2:Int) ^ 24, 0) (1, 0)) = (2:ℚ) ^ 24 := by
  refine ⟨?_, ?_, ?_, ?_, addF32_stall⟩
  · show v.samples.length / v.channels - 1 = N - 1
    rcases hch with hc | hc <;> rw [hc] at hlen ⊢ <;> omega
  · intro w acc ch hr
    rcases h : (w.process acc ch).reads with - | ⟨i, l⟩
    · exact absurd h hr
    · have := Voice.process_reads_mem w acc ch i (by rw [h]; exact List.mem_cons_self _ _)
      exact this.1
  · intro k
    have := Voice.runLast_reads v k hch hact hvel hpos
    rw [hend] at this
    exact this
  · intro k hk
    obtain ⟨hp, -, -, -, -, -⟩ := Voice.runLast_spec v k hch hact hvel hpos
    rw [hend] at hp
    rw [hp, hvel, show min k (N - 1) = k from by omega]
    exact addF32_one_exact k (by omega)

/-- C10 witness: the amended statement, hypotheses discharged, at a concrete
started mono voice with N = 4. -/
theorem C10_end_index_and_emission_witness :
    ((monoDemoVoice.channels = 1 ∨ monoDemoVoice.channels = 2) ∧
     monoDemoVoice.samples.length = monoDemoVoice.channels * 4 ∧
     (4:ℕ) ≤ 2 ^ 24 ∧
     monoDemoVoice.state.end_ = 4 - 1 ∧
     monoDemoVoice.state.active = true ∧
     monoDemoVoice.state.velocity = 1 ∧
     monoDemoVoice.state.position = 0) ∧
    ((Voice.new monoDemoVoice.samples monoDemoVoice.sample_rate monoDemoVoice.channels
        (TempoState.new 48000)).state.end_ = 4 - 1 ∧
     (∀ (w : Voice) (acc : Int) (ch : Nat),
       (w.process acc ch).reads ≠ [] →
         ratToUsize w.state.position < w.state.end_) ∧
     (∀ k : Nat,
       ((monoDemoVoice.runLast k).stepLast.reads ≠ [] ↔ k < 4 - 1) ∧
       (k < 4 - 1 →
         (monoDemoVoice.runLast k).stepLast.reads
           = [k * monoDemoVoice.channels + (monoDemoVoice.channels - 1) % monoDemoVoice.channels])) ∧
     (∀ k : Nat, k < 4 - 1 →
       fval (addF32 ((k : Int), 0) (1, 0))
         = (monoDemoVoice.runLast k).state.position + monoDemoVoice.state.velocity) ∧
     fval (addF32 ((2:Int) ^ 24, 0) (1, 0)) = (2:ℚ) ^ 24) :=
  ⟨⟨Or.inl rfl, rfl, by norm_num, rfl, rfl, rfl, rfl⟩,
   C10_end_index_and_emission monoDemoVoice 4 (TempoState.new 48000)
     (Or.inl rfl) rfl (by norm_num) rfl rfl rfl rfl⟩

/-- `SpscQueue` from `src/src/audio_processing/spsc_q.rs`; `CmdQueue` in
`commands.rs` is the same ring buffer instantiated at the command type.  The
two atomic indices are modelled as plain fields: the claim concerns the
sequential one-producer/one-consumer behaviour. -/
structure SpscQueue (α : Type) where
  buf : List (Option α)
  cap : Nat
  head : Nat
  tail : Nat
deriving DecidableEq

namespace SpscQueue

/-- `SpscQueue::new`: `cap` empty slots, both indices 0. -/
def new (α : Type) (cap : Nat) : SpscQueue α :=
  { buf := List.replicate cap none, cap := cap, head := 0, tail := 0 }

/-- `SpscQueue::try_push`: fails (returning the value, queue untouched) when
advancing the head would collide with the tail, else writes the slot at `head`
and publishes the advanced head. -/
def try_push (q : SpscQueue α) (value : α) : Except α (SpscQueue α) :=
  if (q.head + 1) % q.cap = q.tail then .error value
  else .ok { q with buf := q.buf.set q.head (some value), head := (q.head + 1) % q.cap }

/-- `SpscQueue::try_pop`: returns `none` when `head == tail`, else takes the
value out of the slot at `tail` (clearing it) and advances the tail. -/
def try_pop (q : SpscQueue α) : Option α × SpscQueue α :=
  if q.head = q.tail then (none, q)
  else (q.buf.getD q.tail none,
        { q with buf := q.buf.set q.tail none, tail := (q.tail + 1) % q.cap })

/-- Number of live (pushed, not yet popped) commands. -/
def live (q : SpscQueue α) : Nat := (q.head + q.cap - q.tail) % q.cap

/-- Abstraction of the ring buffer to the queue of live slots, oldest first. -/
def absQ (q : SpscQueue α) : List (Option α) :=
  (List.range q.live).map (fun k => q.buf.getD ((q.tail + k) % q.cap) none)

/-- Well-formedness: indices in range, the buffer has `cap` slots, live slots
are occupied and free slots are cleared.  `new` establishes it and the
operations preserve it. -/
def WF (q : SpscQueue α) : Prop :=
  0 < q.cap ∧ q.buf.length = q.cap ∧ q.head < q.cap ∧ q.tail < q.cap ∧
  (∀ k, k < q.live → (q.buf.getD ((q.tail + k) % q.cap) none).isSome = true) ∧
  (∀ k, k < q.cap → q.live ≤ k → q.buf.getD ((q.tail + k) % q.cap) none = none)

instance (q : SpscQueue α) [DecidableEq α] : Decidable q.WF := by
  unfold WF; infer_instance

-- arithmetic helpers

theorem mod_two_lt {t k c : Nat} (ht : t < c) (hk : k ≤ c) :
    (t + k) % c = if t + k < c then t + k else t + k - c := by
  split
  · exact Nat.mod_eq_of_lt ‹_›
  · rw [Nat.mod_eq_sub_mod (show t + k >= c by omega)]
    apply Nat.mod_eq_of_lt
    omega

theorem live_eq {h t c : Nat} (hh : h < c) (ht : t < c) :
    (h + c - t) % c = if t ≤ h then h - t else h + c - t := by
  split
  · have h1 : h + c - t = c + (h - t) := by omega
    rw [h1, Nat.add_mod_left]
    apply Nat.mod_eq_of_lt
    omega
  · apply Nat.mod_eq_of_lt
    omega

theorem live_lt (q : SpscQueue α) (hwf : q.WF) : q.live < q.cap :=
  Nat.mod_lt _ hwf.1

theorem idx_eq_head_iff {h t c : Nat} (hh : h < c) (ht : t < c) (k : Nat) (hk : k < c) :
    (t + k) % c = h ↔ k = (h + c - t) % c := by
  rw [mod_two_lt ht (le_of_lt hk), live_eq hh ht]
  split <;> split <;> omega

theorem head_eq_tail_iff {h t c : Nat} (hh : h < c) (ht : t < c) :
    h = t ↔ (h + c - t) % c = 0 := by
  rw [live_eq hh ht]
  split <;> omega


theorem getD_set_self {α : Type} (l : List (Option α)) (i : Nat) (v : Option α)
    (h : i < l.length) : (l.set i v).getD i none = v := by
  simp [List.getD_eq_getElem?_getD, List.getElem?_set_eq_of_lt _ h]

theorem getD_set_ne {α : Type} (l : List (Option α)) (i j : Nat) (v : Option α)
    (h : i ≠ j) : (l.set i v).getD j none = l.getD j none := by
  simp [List.getD_eq_getElem?_getD, List.getElem?_set_ne h]

theorem try_push_error_iff (q : SpscQueue α) (v : α) (hwf : q.WF) :
    q.try_push v = .error v ↔ ¬ q.live < q.cap - 1 := by
  obtain ⟨hc, hb, hh, ht, hsome, hnone⟩ := hwf
  unfold try_push live
  have hm := mod_two_lt (c := q.cap) (t := q.head) (k := 1) hh (by omega)
  have hl := live_eq hh ht
  constructor
  · intro he
    split at he
    · rename_i hcond
      rw [hm] at hcond
      rw [hl]
      split at hcond <;> split <;> omega
    · exact absurd he (by simp)
  · intro hfull
    rw [hl] at hfull
    have hcond : (q.head + 1) % q.cap = q.tail := by
      rw [hm]
      split at hfull <;> split <;> omega
    rw [if_pos hcond]

theorem try_push_ok (q : SpscQueue α) (v : α) (q' : SpscQueue α) (hwf : q.WF)
    (hp : q.try_push v = .ok q') :
    q'.WF ∧ q'.absQ = q.absQ ++ [some v] := by
  obtain ⟨hc, hb, hh, ht, hsome, hnone⟩ := hwf
  unfold try_push at hp
  split at hp
  · exact absurd hp (by simp)
  · rename_i hcond
    have hq' : q' = { q with buf := q.buf.set q.head (some v), head := (q.head + 1) % q.cap } := by
      injection hp with h
      exact h.symm
    subst hq'
    have hm1 : (q.head + 1) % q.cap = if q.head + 1 < q.cap then q.head + 1 else 0 := by
      have := mod_two_lt (c := q.cap) (t := q.head) (k := 1) hh (by omega)
      rw [this]
      split <;> omega
    have hlq : q.live = if q.tail ≤ q.head then q.head - q.tail else q.head + q.cap - q.tail :=
      live_eq hh ht
    have hlive_lt : q.live < q.cap := Nat.mod_lt _ hc
    have hlive_ne : q.live ≠ q.cap - 1 := by
      intro hcontra
      rw [hm1] at hcond
      rw [hlq] at hcontra
      split at hcond <;> split at hcontra <;> omega
    have hlive' : ({ q with buf := q.buf.set q.head (some v), head := (q.head + 1) % q.cap } : SpscQueue α).live = q.live + 1 := by
      show ((q.head + 1) % q.cap + q.cap - q.tail) % q.cap = q.live + 1
      have h2 : ((q.head + 1) % q.cap + q.cap - q.tail) % q.cap
          = if q.tail ≤ (q.head + 1) % q.cap
            then (q.head + 1) % q.cap - q.tail
            else (q.head + 1) % q.cap + q.cap - q.tail :=
        live_eq (Nat.mod_lt _ hc) ht
      rw [h2, hlq]
      rw [hm1] at hcond ⊢
      split_ifs at * <;> omega
    have hidx : ∀ k, k < q.cap → ((q.tail + k) % q.cap = q.head ↔ k = q.live) :=
      fun k hk => idx_eq_head_iff hh ht k hk
    constructor
    · refine ⟨hc, by simpa using hb, Nat.mod_lt _ hc, ht, ?_, ?_⟩
      · intro k hk
        rw [hlive'] at hk
        by_cases hkl : k = q.live
        · subst hkl
          show ((q.buf.set q.head (some v)).getD ((q.tail + q.live) % q.cap) none).isSome = true
          rw [(hidx q.live hlive_lt).mpr rfl, getD_set_self _ _ _ (by omega)]
          rfl
        · show ((q.buf.set q.head (some v)).getD ((q.tail + k) % q.cap) none).isSome = true
          rw [getD_set_ne _ _ _ _ (fun h => hkl ((hidx k (by omega)).mp h.symm))]
          exact hsome k (by omega)
      · intro k hk hkl
        rw [hlive'] at hkl
        show (q.buf.set q.head (some v)).getD ((q.tail + k) % q.cap) none = none
        rw [getD_set_ne _ _ _ _ (fun h => by
          have := (hidx k hk).mp h.symm
          omega)]
        exact hnone k hk (by omega)
    · show (List.range (({ q with buf := q.buf.set q.head (some v), head := (q.head + 1) % q.cap } : SpscQueue α).live)).map _ = _
      rw [hlive', List.range_succ, List.map_append]
      congr 1
      · apply List.map_congr_left
        intro k hk
        rw [List.mem_range] at hk
        exact getD_set_ne _ _ _ _ (fun h => by
          have := (hidx k (by omega)).mp h.symm
          omega)
      · simp only [List.map_cons, List.map_nil]
        show [(q.buf.set q.head (some v)).getD ((q.tail + q.live) % q.cap) none] = [some v]
        rw [(hidx q.live hlive_lt).mpr rfl, getD_set_self _ _ _ (by omega)]

theorem try_pop_spec (q : SpscQueue α) (hwf : q.WF) :
    (q.try_pop).1 = q.absQ.headD none ∧
    (q.try_pop).2.absQ = q.absQ.drop 1 ∧
    (q.try_pop).2.WF ∧
    ((q.try_pop).1 = none ↔ q.absQ = []) ∧
    (0 < q.live → (q.try_pop).2.buf.getD q.tail none = none) := by
  obtain ⟨hc, hb, hh, ht, hsome, hnone⟩ := hwf
  have hlq : q.live = if q.tail ≤ q.head then q.head - q.tail else q.head + q.cap - q.tail :=
    live_eq hh ht
  by_cases hht : q.head = q.tail
  · have hl0 : q.live = 0 := by rw [hlq]; split <;> omega
    have habs : q.absQ = [] := by
      unfold absQ
      rw [hl0]
      rfl
    unfold try_pop
    rw [if_pos hht, habs]
    exact ⟨rfl, by simp [habs], ⟨hc, hb, hh, ht, hsome, hnone⟩, by simp, by omega⟩
  · have hl0 : 0 < q.live := by rw [hlq]; split <;> omega
    have hlive_lt : q.live < q.cap := Nat.mod_lt _ hc
    have hf0 : (q.tail + 0) % q.cap = q.tail := by
      rw [Nat.add_zero]
      exact Nat.mod_eq_of_lt ht
    have habs : q.absQ = q.buf.getD q.tail none ::
        (List.range (q.live - 1)).map
          (fun k => q.buf.getD ((q.tail + Nat.succ k) % q.cap) none) := by
      unfold absQ
      have h1 : q.live = (q.live - 1) + 1 := by omega
      rw [h1, List.range_succ_eq_map, List.map_cons, List.map_map]
      rw [show ((q.tail + 0) % q.cap) = q.tail from hf0]
      rfl
    have hidx_t : ∀ j, j < q.cap → ((q.tail + j) % q.cap = q.tail ↔ j = 0) := by
      intro j hj
      have := idx_eq_head_iff (h := q.tail) ht ht j hj
      rw [this]
      constructor
      · intro h1
        have h2 : (q.tail + q.cap - q.tail) % q.cap = 0 := by
          rw [show q.tail + q.cap - q.tail = q.cap by omega]
          exact Nat.mod_self _
        omega
      · intro h1
        rw [show q.tail + q.cap - q.tail = q.cap by omega]
        rw [Nat.mod_self]
        exact h1
    unfold try_pop
    rw [if_neg hht]
    have hm1 : (q.tail + 1) % q.cap = if q.tail + 1 < q.cap then q.tail + 1 else 0 := by
      have := mod_two_lt (c := q.cap) (t := q.tail) (k := 1) ht (by omega)
      rw [this]
      split <;> omega
    have hlive2 : ({ q with buf := q.buf.set q.tail none, tail := (q.tail + 1) % q.cap } : SpscQueue α).live = q.live - 1 := by
      show (q.head + q.cap - (q.tail + 1) % q.cap) % q.cap = q.live - 1
      have h2 : (q.head + q.cap - (q.tail + 1) % q.cap) % q.cap
          = if (q.tail + 1) % q.cap ≤ q.head
            then q.head - (q.tail + 1) % q.cap
            else q.head + q.cap - (q.tail + 1) % q.cap :=
        live_eq hh (Nat.mod_lt _ hc)
      rw [h2, hlq, hm1]
      split_ifs <;> omega
    have hshift : ∀ k, k < q.live - 1 →
        ((q.tail + 1) % q.cap + k) % q.cap = (q.tail + (k + 1)) % q.cap := by
      intro k hk
      rw [Nat.mod_add_mod]
      congr 1
      omega
    have hshift_ne : ∀ k, k < q.live - 1 →
        (q.tail + (k + 1)) % q.cap ≠ q.tail := by
      intro k hk h1
      have := (hidx_t (k + 1) (by omega)).mp h1
      omega
    refine ⟨?_, ?_, ?_, ?_, ?_⟩
    · rw [habs]
      rfl
    · show (List.range (({ q with buf := q.buf.set q.tail none, tail := (q.tail + 1) % q.cap } : SpscQueue α).live)).map _ = _
      rw [hlive2, habs, List.drop_one, List.tail_cons]
      apply List.map_congr_left
      intro k hk
      rw [List.mem_range] at hk
      show (q.buf.set q.tail none).getD (((q.tail + 1) % q.cap + k) % q.cap) none
          = q.buf.getD ((q.tail + Nat.succ k) % q.cap) none
      rw [hshift k hk, getD_set_ne _ _ _ _ (fun h => hshift_ne k hk h.symm)]
    · refine ⟨hc, by simpa using hb, hh, Nat.mod_lt _ hc, ?_, ?_⟩
      · intro k hk
        rw [hlive2] at hk
        show ((q.buf.set q.tail none).getD (((q.tail + 1) % q.cap + k) % q.cap) none).isSome = true
        rw [hshift k hk, getD_set_ne _ _ _ _ (fun h => hshift_ne k hk h.symm)]
        exact hsome (k + 1) (by omega)
      · intro k hk hkl
        have hk2 : k < q.cap := hk
        rw [hlive2] at hkl
        show (q.buf.set q.tail none).getD (((q.tail + 1) % q.cap + k) % q.cap) none = none
        rw [Nat.mod_add_mod]
        by_cases hkc : k + 1 = q.cap
        · rw [show q.tail + 1 + k = q.tail + q.cap by omega, Nat.add_mod_right,
              Nat.mod_eq_of_lt ht]
          exact getD_set_self q.buf q.tail none (by rw [hb]; exact ht)
        · have h1k : k + 1 < q.cap := by omega
          rw [show q.tail + 1 + k = q.tail + (k + 1) by omega]
          rw [getD_set_ne _ _ _ _ (fun h => by
            have h3 := (hidx_t (k + 1) h1k).mp h.symm
            omega)]
          exact hnone (k + 1) h1k (by omega)
    · rw [habs]
      constructor
      · intro h1
        have h2 := hsome 0 hl0
        rw [hf0] at h2
        rw [Option.isSome_iff_ne_none] at h2
        exact absurd h1 h2
      · intro h1
        exact absurd h1 (by simp)
    · intro h1
      show (q.buf.set q.tail none).getD q.tail none = none
      exact getD_set_self q.buf q.tail none (by rw [hb]; exact ht)

/-- `absQ` lists exactly the live commands. -/
theorem absQ_length (q : SpscQueue α) : q.absQ.length = q.live := by
  simp [absQ]

/-- C4: the SPSC queue, run sequentially, is a FIFO of capacity `cap - 1`:
`try_push` succeeds exactly while fewer than `cap - 1` commands are live
(otherwise it returns the queue-full error and, being pure on failure, leaves
the queue unchanged) and appends the command at the back of the abstract
queue; `try_pop` returns the front of the abstract queue (the oldest pushed
command, in push order), clears the popped slot, and returns `Empty` exactly
when no live command remains.  Well-formedness is preserved by both
operations. -/
theorem C4_spsc_queue_fifo (α : Type) (q : SpscQueue α) (v : α) (hwf : q.WF) :
    q.absQ.length = q.live ∧
    (q.try_push v = .error v ↔ ¬ q.live < q.cap - 1) ∧
    (∀ q', q.try_push v = .ok q' → q'.WF ∧ q'.absQ = q.absQ ++ [some v]) ∧
    (q.try_pop.1 = q.absQ.headD none) ∧
    (q.try_pop.2.absQ = q.absQ.drop 1) ∧
    q.try_pop.2.WF ∧
    (q.try_pop.1 = none ↔ q.absQ = []) ∧
    (0 < q.live → q.try_pop.2.buf.getD q.tail none = none) := by
  obtain ⟨h1, h2, h3, h4, h5⟩ := try_pop_spec q hwf
  exact ⟨absQ_length q, try_push_error_iff q v hwf,
    fun q' hp => try_push_ok q v q' hwf hp, h1, h2, h3, h4, h5⟩

/-- A well-formed queue with capacity 4 holding two live commands. -/
def demoQueue : SpscQueue Nat :=
  { buf := [some 10, some 20, none, none], cap := 4, head := 2, tail := 0 }

/-- C4 witness: the FIFO specification, hypothesis discharged, at `demoQueue`. -/
theorem C4_spsc_queue_fifo_witness :
    demoQueue.WF ∧
    (demoQueue.absQ.length = demoQueue.live ∧
     (demoQueue.try_push 30 = .error 30 ↔ ¬ demoQueue.live < demoQueue.cap - 1) ∧
     (∀ q', demoQueue.try_push 30 = .ok q' → q'.WF ∧ q'.absQ = demoQueue.absQ ++ [some 30]) ∧
     (demoQueue.try_pop.1 = demoQueue.absQ.headD none) ∧
     (demoQueue.try_pop.2.absQ = demoQueue.absQ.drop 1) ∧
     demoQueue.try_pop.2.WF ∧
     (demoQueue.try_pop.1 = none ↔ demoQueue.absQ = []) ∧
     (0 < demoQueue.live → demoQueue.try_pop.2.buf.getD demoQueue.tail none = none)) :=
  ⟨by decide, C4_spsc_queue_fifo Nat demoQueue 30 (by decide)⟩

end SpscQueue

/-- An inactive voice, as produced by `load` before any `start`. -/
def inactiveDemoVoice : Voice :=
  { monoDemoVoice with state := { monoDemoVoice.state with active := false } }

/-- C9: counterexample.  For a voice that is inactive before the pause,
`pause; resume` does not restore the prior active flag: `resume` sets it
unconditionally. -/
theorem C9_pause_resume_counterexample :
    ((inactiveDemoVoice.pause).resume).state.active ≠ inactiveDemoVoice.state.active := by
  decide

/-- C9 (amended): `pause; resume` always leaves the voice active, whatever the
prior state; consequently the prior active flag is restored exactly when the
voice was active before the pause. -/
theorem C9_pause_resume_amended (v : Voice) :
    ((v.pause).resume).state.active = true ∧
    (((v.pause).resume).state.active = v.state.active ↔ v.state.active = true) := by
  refine ⟨rfl, ?_⟩
  simp [Voice.pause, Voice.resume]

set_option maxRecDepth 16384 in
/-- C6: counterexample.  The parser accepts `s:0` (any f32 parses; `init`
stores it unchanged, interval 0), and positivity fails even for strictly
positive parses: `m:1e-45` parses to the smallest positive subnormal
`2^-149 = fval (1, -149) > 0`, and the rounded binary32 division
`interval / 1000.0` underflows to zero, so the stored interval is 0. -/
theorem C6_interval_zero_counterexample :
    convert_interval32 (48000, 0) TempoUnit.Samples (0, 0) = (0, 0) ∧
    convert_interval32 (48000, 0) TempoUnit.Millis (1, -149) = (0, 0) ∧
    (0:ℚ) < fval (1, -149) ∧
    ¬ (0:ℚ) < fval (convert_interval32 (48000, 0) TempoUnit.Samples (0, 0)) ∧
    ¬ (0:ℚ) < fval (convert_interval32 (48000, 0) TempoUnit.Millis (1, -149)) ∧
    ((TempoState.new 48000).init 48000 TempoMode.Context TempoUnit.Samples 0).interval = 0 := by
  refine ⟨by decide, by decide, ?_, ?_, ?_, rfl⟩
  · show (0:ℚ) < ((1:ℤ):ℚ) * 2 ^ (-149 : ℤ)
    positivity
  · rw [show convert_interval32 (48000, 0) TempoUnit.Samples (0, 0) = (0, 0) from by decide]
    norm_num [fval]
  · rw [show convert_interval32 (48000, 0) TempoUnit.Millis (1, -149) = (0, 0) from by decide]
    norm_num [fval]

/-- C6 (amended): under the binary32 semantics of `convert_interval` — the
division and the multiplication by the sample rate each rounded to
nearest-even — the stored interval is strictly positive for every unit
provided the parsed interval is a strictly positive normal finite f32
(`2^-126 ≤ i ≤ 2^128`) and the sample rate is at least 1.  (`Samples` stores
the parsed value itself, so there positivity needs only `0 < i`.)  The
normality proviso is necessary: positive subnormal parses such as `m:1e-45`
store interval 0 by underflow (see the counterexample), and `s:0` stores 0. -/
theorem C6_interval_positive32 (sr i : Int × Int) (unit : TempoUnit)
    (hsr1 : 1 ≤ sr.1) (hsrv : 1 ≤ fval sr) (hi1 : 1 ≤ i.1)
    (hlo : (2:ℚ) ^ (-126 : ℤ) ≤ fval i) (hhi : fval i ≤ (2:ℚ) ^ (128 : ℤ)) :
    0 < fval (convert_interval32 sr unit i) := by
  cases unit
  · show 0 < fval i
    exact lt_of_lt_of_le (zpow_pos (by norm_num) _) hlo
  · show 0 < fval (mulF32 sr (divF32 i (1000, 0)))
    have hdiv := divF32_pos i (1000, 0) hi1 (by norm_num)
      (by
        rw [show fval ((1000:ℤ), (0:ℤ)) = 1000 from by norm_num [fval]]
        have hstep : (2:ℚ) ^ (-150:ℤ) * 1000 < (2:ℚ) ^ (-126:ℤ) := by
          rw [show (2:ℚ) ^ (-126:ℤ) = (2:ℚ) ^ (-150:ℤ) * (2:ℚ) ^ (24:ℤ) from by
                rw [← zpow_add₀ (by norm_num : (2:ℚ) ≠ 0)]; norm_num,
            show (2:ℚ) ^ (24:ℤ) = 16777216 from by norm_num]
          have hp : (0:ℚ) < (2:ℚ) ^ (-150:ℤ) := zpow_pos (by norm_num) _
          nlinarith
        exact lt_of_lt_of_le hstep hlo)
    exact mul_sr_frac_pos sr _ hsr1 hsrv hdiv.1 hdiv.2
  · show 0 < fval (mulF32 sr (divF32 (60, 0) i))
    have hdiv := divF32_pos (60, 0) i (by norm_num) hi1
      (by
        rw [show fval ((60:ℤ), (0:ℤ)) = 60 from by norm_num [fval]]
        have hstep : (2:ℚ) ^ (-150:ℤ) * fval i ≤ (2:ℚ) ^ (-22:ℤ) := by
          have h1 : (2:ℚ) ^ (-150:ℤ) * fval i ≤ (2:ℚ) ^ (-150:ℤ) * (2:ℚ) ^ (128:ℤ) :=
            mul_le_mul_of_nonneg_left hhi (le_of_lt (zpow_pos (by norm_num) _))
          rw [← zpow_add₀ (by norm_num : (2:ℚ) ≠ 0)] at h1
          exact le_of_le_of_eq h1 (by norm_num)
        have h22 : (2:ℚ) ^ (-22:ℤ) < 60 := by
          rw [show (-22:ℤ) = -((22:ℕ):ℤ) from by norm_num, zpow_neg, zpow_natCast]
          norm_num
        linarith)
    exact mul_sr_frac_pos sr _ hsr1 hsrv hdiv.1 hdiv.2

/-- C6 witness: the amended claim at sample rate 48000, unit `Millis`, and the
smallest positive normal interval `2^-126`. -/
theorem C6_interval_positive32_witness :
    ((1:ℤ) ≤ ((48000:ℤ), (0:ℤ)).1 ∧ (1:ℚ) ≤ fval (48000, 0) ∧
     (1:ℤ) ≤ ((1:ℤ), (-126:ℤ)).1 ∧
     (2:ℚ) ^ (-126 : ℤ) ≤ fval (1, -126) ∧ fval (1, -126) ≤ (2:ℚ) ^ (128 : ℤ)) ∧
    0 < fval (convert_interval32 (48000, 0) TempoUnit.Millis (1, -126)) :=
  ⟨⟨by norm_num, by norm_num [fval], by norm_num,
    by norm_num [fval],
    by
      rw [show fval ((1:ℤ), (-126:ℤ)) = (2:ℚ) ^ (-126:ℤ) from by norm_num [fval]]
      exact le_of_lt (zpow_lt_zpow_right₀ (by norm_num) (by norm_num))⟩,
   C6_interval_positive32 (48000, 0) (1, -126) TempoUnit.Millis (by norm_num)
     (by norm_num [fval]) (by norm_num) (by norm_num [fval])
     (by
       rw [show fval ((1:ℤ), (-126:ℤ)) = (2:ℚ) ^ (-126:ℤ) from by norm_num [fval]]
       exact le_of_lt (zpow_lt_zpow_right₀ (by norm_num) (by norm_num)))⟩


/-- C7: counterexample to the 1-ULP round trip.  `b0 = 13107217 * 2^-17 =
100.00012969970703` is an exact binary32 value in the binade `[2^6, 2^7)`,
where 1 ULP is `2^-17`.  At sample rate 48000 the round trip
`Bpm -> samples -> Bpm` (each step two rounded f32 operations, as in
`convert_interval`) returns `13107215 * 2^-17`, which is `2^-16` — two ULP —
below `b0`. -/
theorem C7_bpm_roundtrip_counterexample :
    (13107217 : Int) < 2 ^ 24 ∧
    convert_interval32 (48000, 0) TempoUnit.Bpm
      (convert_interval32 (48000, 0) TempoUnit.Bpm (13107217, -17)) = (13107215, -17) ∧
    (2:ℚ)^(6:ℤ) ≤ fval (13107217, -17) ∧ fval (13107217, -17) < (2:ℚ)^(7:ℤ) ∧
    fval (13107215, -17) - fval (13107217, -17) = -(1/65536) ∧
    ¬ |fval (13107215, -17) - fval (13107217, -17)| ≤ (2:ℚ)^(-17 : ℤ) := by
  refine ⟨by decide, by decide, ?_, ?_, ?_, ?_⟩ <;> norm_num [fval, abs]

/-- C7 (amended): the conversion formulas hold as stated over the exact values
(`Samples` identity, `Millis` `sr*i/1000`, `Bpm` `sr*60/i`), and the
conversion is a pure function of `(sample rate, unit, interval)`; but the
binary32 `Bpm` round trip is not always within 1 ULP: at sample rate 48000 and
`b0 = 13107217 * 2^-17` it reproduces `b0 - 2 * 2^-17` — exactly 2 ULP low. -/
theorem C7_conversion_formulas_and_roundtrip :
    (∀ (sr : ℚ) (unit : TempoUnit) (i : ℚ),
        convert_interval sr unit i = convert_interval_spec sr unit i) ∧
    fval (convert_interval32 (48000, 0) TempoUnit.Bpm
        (convert_interval32 (48000, 0) TempoUnit.Bpm (13107217, -17)))
      = fval (13107217, -17) - 2 * (2:ℚ)^(-17 : ℤ) := by
  constructor
  · intro sr unit i
    cases unit <;> simp only [convert_interval, convert_interval_spec] <;> ring
  · rw [show convert_interval32 (48000, 0) TempoUnit.Bpm
        (convert_interval32 (48000, 0) TempoUnit.Bpm (13107217, -17))
        = (13107215, -17) from by decide]
    norm_num [fval]


/-- Left-rotate a 64-bit value: `(x << k) | (x >> (64 - k))` with the shift
wrapping mod `2^64`. -/
def rotl (x : Nat) (k : Nat) : Nat :=
  ((x <<< k) % 2 ^ 64) ||| (x >>> (64 - k))

/-- Xoroshiro128+ state, `X128P` from `blast_rand.rs`.  The two `u64` words are
naturals; every operation that can wrap reduces mod `2^64`. -/
structure X128P where
  s0 : Nat
  s1 : Nat
deriving DecidableEq, Repr

namespace X128P

/-- `X128P::next_u64`: result is the wrapping sum of the state words, and the
state advances by the xoroshiro128+ rotations/xors/shift. -/
def next_u64 (g : X128P) : Nat × X128P :=
  let result := (g.s0 + g.s1) % 2 ^ 64
  let s1 := g.s1 ^^^ g.s0
  let s0' := rotl g.s0 55 ^^^ s1 ^^^ ((s1 <<< 14) % 2 ^ 64)
  let s1' := rotl s1 36
  (result, ⟨s0', s1'⟩)

/-- Interpretation of a `u64` bit pattern as an `i64` (the `as i64` cast). -/
def toI64 (n : Nat) : Int :=
  if n % 2 ^ 64 < 2 ^ 63 then (n % 2 ^ 64 : Int) else (n % 2 ^ 64 : Int) - 2 ^ 64

/-- `X128P::next_i64_range`: widen draw and range to 128 bits, multiply, take
the top 64 bits, add the lower bound. -/
def next_i64_range (g : X128P) (lower upper : Int) : Int × X128P :=
  let ru := g.next_u64
  let range : Nat := if lower < upper then (upper - lower).toNat else (lower - upper).toNat
  let val : Int := toI64 (ru.1 * range / 2 ^ 64)
  (lower + val, ru.2)

end X128P

/-- Rust's `%` on floats (remainder with the dividend's sign), on the exact
rational model. -/
def ratRem (a b : ℚ) : ℚ := a - b * (ratTrunc (a / b) : ℚ)

/-- Rust's `f32 as i64` cast: truncate toward zero, saturating at the i64
range. -/
def i64cast (q : ℚ) : Int :=
  max (-(2 ^ 63)) (min (2 ^ 63 - 1) (ratTrunc q))

/-- `SeqState` from `processes.rs`. -/
structure SeqState where
  active : Bool
  period : Nat
  tempo : TempoState
  steps : List ℚ
  chance : List ℚ
  jit : List ℚ
  rng : X128P
  idx : Nat

/-- `Seq::process` from `processes.rs`, acting on the owning voice's
`VoiceState`: when the sequencer and its tempo are active and the
period-folded tempo position equals `steps[idx]`, draw from the PRNG, reset the
voice position (0 forward, `end` reverse) when the draw is strictly below
`chance[idx] as i64`, and advance `idx` mod `len(steps)`.  List indexing that
would panic in Rust is modelled with `getD _ 0`. -/
def Seq.process (s : SeqState) (voice : VoiceState) : SeqState × VoiceState :=
  if !s.active then (s, voice) else
  if !s.tempo.active then (s, voice) else
  let current := ratRem s.tempo.current_f (s.period : ℚ)
  if current = s.steps.getD s.idx 0 then
    let rv := s.rng.next_i64_range 0 100
    let voice' :=
      if rv.1 < i64cast (s.chance.getD s.idx 0) then
        { voice with position := if voice.velocity ≥ 0 then 0 else (voice.end_ : ℚ) }
      else voice
    ({ s with rng := rv.2, idx := (s.idx + 1) % s.steps.length }, voice')
  else (s, voice)

/-- Every element of an all-zero chance list reads back as 0. -/
theorem getD_all_zero (l : List ℚ) (i : Nat) (h : ∀ c ∈ l, c = 0) : l.getD i 0 = 0 := by
  rw [List.getD_eq_getElem?_getD]
  rcases h2 : l[i]? with - | c
  · rfl
  · exact h c (List.getElem?_mem h2)

/-- The saturating cast of 0 is 0. -/
theorem i64cast_zero : i64cast 0 = 0 := by
  norm_num [i64cast, ratTrunc]

/-- C8: the chance draw always lies in [0, 100); the voice is left untouched
whenever the draw is not strictly below `chance[idx] as i64`; hence with an
all-zero chance vector one sequencer step never retriggers the voice — and
since this holds for every sequencer state, PRNG state and voice state, it
holds at every frame of every run. -/
theorem C8_seq_zero_chance_never_retriggers (g : X128P) (s : SeqState) (v : VoiceState) :
    (0 ≤ (g.next_i64_range 0 100).1 ∧ (g.next_i64_range 0 100).1 < 100) ∧
    (¬ (s.rng.next_i64_range 0 100).1 < i64cast (s.chance.getD s.idx 0) →
      (Seq.process s v).2 = v) ∧
    ((∀ c ∈ s.chance, c = 0) → (Seq.process s v).2 = v) := by
  have hdraw : ∀ h : X128P, 0 ≤ (h.next_i64_range 0 100).1 ∧ (h.next_i64_range 0 100).1 < 100 := by
    intro h
    have hr : (h.next_u64).1 < 2 ^ 64 := Nat.mod_lt _ (by norm_num)
    have hv : (h.next_u64).1 * 100 / 2 ^ 64 < 100 := by
      rw [Nat.div_lt_iff_lt_mul (by norm_num)]
      calc (h.next_u64).1 * 100 < 2 ^ 64 * 100 := mul_lt_mul_of_pos_right hr (by norm_num)
        _ = 100 * 2 ^ 64 := by ring
    have hkey : (h.next_i64_range 0 100).1 = ((h.next_u64).1 * 100 / 2 ^ 64 : Nat) := by
      unfold X128P.next_i64_range X128P.toI64
      dsimp only
      rw [if_pos (by norm_num : (0:Int) < 100)]
      rw [show ((100:Int) - 0).toNat = 100 from rfl]
      rw [Nat.mod_eq_of_lt (lt_trans hv (by norm_num))]
      rw [if_pos (lt_trans hv (by norm_num : (100:Nat) < 2 ^ 63))]
      rw [Int.emod_eq_of_lt (Int.ofNat_nonneg _) (by exact_mod_cast lt_trans hv (by norm_num : (100:Nat) < 2 ^ 64))]
      exact zero_add _
    rw [hkey]
    constructor
    · exact Int.ofNat_nonneg _
    · exact_mod_cast hv
  refine ⟨hdraw g, ?_, ?_⟩
  · intro hge
    unfold Seq.process
    split
    · rfl
    · split
      · rfl
      · dsimp only
        by_cases hfire : ratRem s.tempo.current_f (s.period : ℚ) = s.steps.getD s.idx 0
        · rw [if_pos hfire]
          dsimp only
          rw [if_neg hge]
        · rw [if_neg hfire]
  · intro hzero
    have h0 : s.chance.getD s.idx 0 = 0 := getD_all_zero _ _ hzero
    have hge : ¬ (s.rng.next_i64_range 0 100).1 < i64cast (s.chance.getD s.idx 0) := by
      rw [h0, i64cast_zero]
      have := (hdraw s.rng).1
      omega
    unfold Seq.process
    split
    · rfl
    · split
      · rfl
      · dsimp only
        by_cases hfire : ratRem s.tempo.current_f (s.period : ℚ) = s.steps.getD s.idx 0
        · rw [if_pos hfire]
          dsimp only
          rw [if_neg hge]
        · rw [if_neg hfire]


/-- The PRNG state ⟨1, 2⟩, for concrete evaluation. -/
def demoRng : X128P := ⟨1, 2⟩

/-- A voice state for the sequencer to act on. -/
def demoVoiceState : VoiceState :=
  { active := true, position := 0, end_ := 3, velocity := 1, gain := 1
    tempo := TempoState.new 48000 }

/-- An active four-step sequencer whose chance vector is all zero. -/
def demoSeq : SeqState :=
  { active := true
    period := 4
    tempo := { TempoState.new 48000 with active := true }
    steps := [0, 1, 2, 3]
    chance := [0, 0, 0, 0]
    jit := []
    rng := demoRng
    idx := 0 }

/-- C8 witness: both hypotheses discharged at the concrete all-zero-chance
sequencer; the draw is in range and the voice is untouched. -/
theorem C8_seq_zero_chance_witness :
    (¬ (demoSeq.rng.next_i64_range 0 100).1 < i64cast (demoSeq.chance.getD demoSeq.idx 0)) ∧
    (∀ c ∈ demoSeq.chance, c = 0) ∧
    (0 ≤ (demoRng.next_i64_range 0 100).1 ∧ (demoRng.next_i64_range 0 100).1 < 100) ∧
    (Seq.process demoSeq demoVoiceState).2 = demoVoiceState := by
  have hchance : ∀ c ∈ demoSeq.chance, c = 0 := by simp [demoSeq]
  have hge : ¬ (demoSeq.rng.next_i64_range 0 100).1
      < i64cast (demoSeq.chance.getD demoSeq.idx 0) := by
    rw [show demoSeq.chance.getD demoSeq.idx 0 = (0:ℚ) from rfl, i64cast_zero]
    decide
  exact ⟨hge, hchance,
    (C8_seq_zero_chance_never_retriggers demoRng demoSeq demoVoiceState).1,
    (C8_seq_zero_chance_never_retriggers demoRng demoSeq demoVoiceState).2.2 hchance⟩


/-- The range-token branch (`<lo>-<hi>:<value>`) of `try_seq`'s `-c` chance
parser in `commands.rs`.  `indices` is the result of splitting the range part
at `-`, each piece parsed as f32 (exact rationals here); `chance_val` the
parsed value after the colon.  Mirrors the source statement for statement —
including that the source parses `i1_str` and `i2_str` both from
`indices.get(0)` — with the in-place `chance[idx] = chance_val` loop rendered
as a map over the step indices.  `none` models the error returns. -/
def chanceRangeToken (steps chance : List ℚ) (indices : List ℚ) (chance_val : ℚ) :
    Option (List ℚ) :=
  if indices.length ≠ 2 then none
  else
    let idx1 := indices.getD 0 0
    let idx2 := indices.getD 0 0
    let lower := if idx1 > idx2 then idx2 else idx1
    let upper := if idx1 > idx2 then idx1 else idx2
    if lower > steps.getD (steps.length - 1) 0 then none
    else some ((List.range steps.length).map (fun i =>
      if steps.getD i 0 ≥ lower ∧ steps.getD i 0 ≤ upper then chance_val
      else chance.getD i 0))

/-- C2: at steps `0..7` with all chances 100, the token `2-5:50` yields
`[100,100,50,100,100,100,100,100]` — only the step whose beat equals 2 is
changed, because the source parses both range endpoints from `indices.get(0)`
— not the claimed `[100,100,50,50,50,50,100,100]`. -/
theorem C2_chance_range_bug :
    chanceRangeToken [0, 1, 2, 3, 4, 5, 6, 7] (List.replicate 8 100) [2, 5] 50
      = some [100, 100, 50, 100, 100, 100, 100, 100] ∧
    ¬ chanceRangeToken [0, 1, 2, 3, 4, 5, 6, 7] (List.replicate 8 100) [2, 5] 50
      = some [100, 100, 50, 50, 50, 50, 100, 100] := by
  exact ⟨by decide, by decide⟩


/-- `VoiceRepr`'s index field (the other fields do not bear on index
coherence). -/
structure VoiceIdx where
  idx : Nat
deriving DecidableEq, Repr

/-- `GroupRepr` from `commands.rs`: its position in the engine's group list and
its contained voices' name-to-index map (modelled as an insertion-ordered
association list, a determinization of the source `HashMap`). -/
structure GroupRepr where
  idx : Nat
  voices : List (String × Nat)
deriving DecidableEq, Repr

/-- The engine-state mirror (`EngineState` in `commands.rs`), restricted to
the index data the invariant speaks about: name-to-index maps for top-level
voices, groups and tempo contexts. -/
structure EngineState where
  voices : List (String × Nat)
  groups : List (String × GroupRepr)
  tempo_cons : List (String × Nat)
deriving DecidableEq, Repr

/-- The audio thread's `Conductor`, with each voice identified by the name it
was loaded under (the mirror's notion of correspondence). -/
structure Conductor where
  voices : List String
  groups : List (List String)
  tempo_cons : List String
deriving DecidableEq, Repr

/-- `try_load` + `Conductor::load`: fail on a duplicate name, else the mirror
records `idx = voices.len()` and the engine pushes the voice at the back. -/
def doLoad (m : EngineState) (e : Conductor) (name : String) :
    Option (EngineState × Conductor) :=
  if (m.voices.lookup name).isSome then none
  else some ({ m with voices := m.voices ++ [(name, m.voices.length)] },
             { e with voices := e.voices ++ [name] })

/-- Decrement every mirror index strictly above a removed index. -/
def decAbove (ms : List (String × Nat)) (r : Nat) : List (String × Nat) :=
  ms.map (fun p => if p.2 > r then (p.1, p.2 - 1) else p)

/-- `try_unload` + `Conductor::unload`: drop the entry from the mirror,
decrement the higher mirror indices, and remove the voice from the engine
list. -/
def doUnload (m : EngineState) (e : Conductor) (name : String) :
    Option (EngineState × Conductor) :=
  match m.voices.lookup name with
  | none => none
  | some i =>
    some ({ m with voices := decAbove (m.voices.filter (fun p => p.1 ≠ name)) i },
          { e with voices := e.voices.eraseIdx i })

/-- The `-v` collection loop of `try_group`: remove each named voice from the
mirror in the given order, record its (pre-removal) index in `v_ids`, and give
it the next index in the group's map (`voice.idx = voices.len()`). -/
def groupCollect : List (String × Nat) → List String → List (String × Nat) → List Nat →
    Option (List (String × Nat) × List Nat × List (String × Nat))
  | ms, [], gvs, ids => some (ms, ids, gvs)
  | ms, n :: rest, gvs, ids =>
    match ms.lookup n with
    | none => none
    | some i => groupCollect (ms.filter (fun p => p.1 ≠ n)) rest
        (gvs ++ [(n, gvs.length)]) (ids ++ [i])

/-- Insert into a descending-sorted list. -/
def insertDesc (x : Nat) : List Nat → List Nat
  | [] => [x]
  | y :: ys => if x ≥ y then x :: y :: ys else y :: insertDesc x ys

/-- Sort descending — the `sort_by(|a, b| b.cmp(a))` applied to `v_ids` and to
the command payload `vs_fs_ps`. -/
def sortDesc (l : List Nat) : List Nat := l.foldr insertDesc []

/-- `try_group` + `Conductor::group` (one `-v` block; the tempo payload does
not affect indices).  Parser side: collect the named voices, then for each
removed index in descending order decrement the remaining mirror indices, and
insert the group at `idx = groups.len()`.  Engine side: for each index of the
descending-sorted payload, `voices.remove(idx)` and push the removed voice
onto the new group's list; the group is pushed at the back. -/
def doGroup (m : EngineState) (e : Conductor) (gname : String) (names : List String) :
    Option (EngineState × Conductor) :=
  match groupCollect m.voices names [] [] with
  | none => none
  | some (ms, ids, gvs) =>
    let sorted := sortDesc ids
    let ms' := sorted.foldl decAbove ms
    let gr : GroupRepr := { idx := m.groups.length, voices := gvs }
    let m' := { m with voices := ms', groups := m.groups ++ [(gname, gr)] }
    let moved := sorted.foldl
        (fun (acc : List String × List String) i =>
          (acc.1.eraseIdx i, acc.2 ++ [acc.1.getD i ""])) (e.voices, [])
    some (m', { e with voices := moved.1, groups := e.groups ++ [moved.2] })

/-- The mirror after `load kick; load snare; group band -v kick,snare`:
band's voices are numbered in the order given (`kick` at 0, `snare` at 1). -/
def demoMirror3 : EngineState :=
  { voices := []
    groups := [("band", { idx := 0, voices := [("kick", 0), ("snare", 1)] })]
    tempo_cons := [] }

/-- The engine after the same commands: the group command removes voices in
descending index order and pushes them in that order, so band's list is
`[snare, kick]`. -/
def demoEngine3 : Conductor :=
  { voices := [], groups := [["snare", "kick"]], tempo_cons := [] }

/-- C3: after the successful sequence `load kick; load snare;
group band -t b:60 -v kick,snare`, the mirror numbers band's voices in the
given order (kick at 0, snare at 1) while the audio thread builds band's
voice list in descending original-index order (`[snare, kick]`); the
VoiceRepr for `kick` has `idx = 0` but the corresponding voice sits at
position 1 of the engine's ordered list, so the index-coherence invariant
fails for VoiceReprs inside groups. -/
theorem C3_group_voice_index_bug :
    ((doLoad ⟨[], [], []⟩ ⟨[], [], []⟩ "kick").bind fun p =>
      (doLoad p.1 p.2 "snare").bind fun p2 =>
        doGroup p2.1 p2.2 "band" ["kick", "snare"])
      = some (demoMirror3, demoEngine3) ∧
    (demoMirror3.groups.lookup "band").map (fun g => g.voices.lookup "kick")
      = some (some 0) ∧
    demoEngine3.groups.getD 0 [] = ["snare", "kick"] ∧
    (demoEngine3.groups.getD 0 []).getD 0 "x" ≠ "kick" := by
  exact ⟨by decide, by decide, by decide, by decide⟩

end Blast
